import Mathlib

/-!
Verification of the windwarden utility-class sorter/rewriter.

This file shallowly embeds the core of the repository in Lean 4:

* the Tailwind sorter (`src/sorter/mod.rs`, `src/sorter/categories.rs`),
* the class-match extractor (`src/parser/visitor.rs`, `src/parser/mod.rs`),
* the rewrite loop of `FileProcessor::process_content` (`src/processor/mod.rs`),
* the custom-category-order validation of `ConfigManager::validate_config`
  (`src/config.rs`).

Rust strings are modelled as `List Char` (the sources only ever split and
compare on ASCII delimiters, where Rust's byte indices and the char indices
used here agree, and Rust's byte-wise string order agrees with the
code-point-wise order used here).  The AST produced by the external `oxc`
parser is out of scope of the repository; it is modelled from the spec's
interface contract (section 4.1) by an explicit `Node` type, and concrete
parses used in theorems are spelled out as concrete `Node` values.
-/

/-! ## Generic three-way-comparison framework

Rust's `Ord` on `usize`, `String` and `Vec<&str>` is modelled by
`cmpL`, `listCmp cmpL` and `listCmp (listCmp cmpL)` respectively. -/

/-- Three-way comparison of a linear order, mirroring Rust's `Ord::cmp`. -/
def cmpL {α : Type} [LinearOrder α] (a b : α) : Ordering :=
  if a < b then Ordering.lt else if a = b then Ordering.eq else Ordering.gt

/-- Lexicographic comparison of lists with shorter-list tie-break, mirroring
Rust's `Ord` for slices and `Vec`. -/
def listCmp {α : Type} (cmp : α → α → Ordering) : List α → List α → Ordering
  | [], [] => Ordering.eq
  | [], _ :: _ => Ordering.lt
  | _ :: _, [] => Ordering.gt
  | a :: as', b :: bs' =>
    match cmp a b with
    | Ordering.eq => listCmp cmp as' bs'
    | o => o

/-- Lexicographic comparison of pairs. -/
def prodCmp {α β : Type} (c₁ : α → α → Ordering) (c₂ : β → β → Ordering)
    (x y : α × β) : Ordering :=
  match c₁ x.1 y.1 with
  | Ordering.eq => c₂ x.2 y.2
  | o => o

/-- Laws a faithful three-way comparison satisfies. -/
structure CmpLaws {α : Type} (cmp : α → α → Ordering) : Prop where
  eq_iff : ∀ a b, cmp a b = Ordering.eq ↔ a = b
  swap_eq : ∀ a b, cmp b a = (cmp a b).swap
  lt_trans : ∀ a b c, cmp a b = Ordering.lt → cmp b c = Ordering.lt →
    cmp a c = Ordering.lt

theorem cmpL_eq_iff {α : Type} [LinearOrder α] (a b : α) :
    cmpL a b = Ordering.eq ↔ a = b := by
  unfold cmpL
  by_cases h1 : a < b
  · simp [h1, ne_of_lt h1]
  · by_cases h2 : a = b <;> simp [h1, h2]

theorem cmpL_lt_iff {α : Type} [LinearOrder α] (a b : α) :
    cmpL a b = Ordering.lt ↔ a < b := by
  unfold cmpL
  by_cases h1 : a < b
  · simp [h1]
  · by_cases h2 : a = b <;> simp [h1, h2]

theorem cmpL_swap {α : Type} [LinearOrder α] (a b : α) :
    cmpL b a = (cmpL a b).swap := by
  unfold cmpL
  rcases lt_trichotomy a b with h | h | h
  · simp [h, lt_asymm h, Ne.symm (ne_of_lt h), Ordering.swap]
  · subst h; simp [lt_irrefl, Ordering.swap]
  · simp [h, lt_asymm h, Ne.symm (ne_of_lt h), Ordering.swap]

theorem cmpL_laws {α : Type} [LinearOrder α] : CmpLaws (cmpL (α := α)) := by
  refine ⟨cmpL_eq_iff, cmpL_swap, ?_⟩
  intro a b c hab hbc
  rw [cmpL_lt_iff] at hab hbc ⊢
  exact lt_trans hab hbc

theorem listCmp_eq_iff {α : Type} {cmp : α → α → Ordering} (h : CmpLaws cmp) :
    ∀ a b : List α, listCmp cmp a b = Ordering.eq ↔ a = b
  | [], [] => by simp [listCmp]
  | [], _ :: _ => by simp [listCmp]
  | _ :: _, [] => by simp [listCmp]
  | a :: as', b :: bs' => by
    simp only [listCmp]
    rcases ho : cmp a b with _ | _ | _
    · simp only [List.cons.injEq]
      constructor
      · intro hc; cases hc
      · rintro ⟨h1, _⟩
        subst h1
        rw [(h.eq_iff a a).2 rfl] at ho
        cases ho
    · rw [listCmp_eq_iff h as' bs']
      simp [List.cons.injEq, (h.eq_iff a b).1 ho]
    · simp only [List.cons.injEq]
      constructor
      · intro hc; cases hc
      · rintro ⟨h1, _⟩
        subst h1
        rw [(h.eq_iff a a).2 rfl] at ho
        cases ho

theorem listCmp_swap {α : Type} {cmp : α → α → Ordering} (h : CmpLaws cmp) :
    ∀ a b : List α, listCmp cmp b a = (listCmp cmp a b).swap
  | [], [] => by simp [listCmp, Ordering.swap]
  | [], _ :: _ => by simp [listCmp, Ordering.swap]
  | _ :: _, [] => by simp [listCmp, Ordering.swap]
  | a :: as', b :: bs' => by
    simp only [listCmp]
    rw [h.swap_eq a b]
    rcases ho : cmp a b with _ | _ | _ <;>
      simp [Ordering.swap, listCmp_swap h as' bs']

theorem listCmp_cons_lt {α : Type} {cmp : α → α → Ordering}
    (a b : α) (as' bs' : List α) :
    listCmp cmp (a :: as') (b :: bs') = Ordering.lt ↔
      cmp a b = Ordering.lt ∨
        (cmp a b = Ordering.eq ∧ listCmp cmp as' bs' = Ordering.lt) := by
  simp only [listCmp]
  rcases cmp a b with _ | _ | _ <;> simp

theorem listCmp_lt_trans {α : Type} {cmp : α → α → Ordering} (h : CmpLaws cmp) :
    ∀ a b c : List α, listCmp cmp a b = Ordering.lt →
      listCmp cmp b c = Ordering.lt → listCmp cmp a c = Ordering.lt
  | [], [], _ => by intro hab _; simp [listCmp] at hab
  | [], _ :: _, [] => by intro _ hbc; simp [listCmp] at hbc
  | [], _ :: _, _ :: _ => by intro _ _; simp [listCmp]
  | _ :: _, [], _ => by intro hab _; simp [listCmp] at hab
  | _ :: _, _ :: _, [] => by intro _ hbc; simp [listCmp] at hbc
  | a :: as', b :: bs', c :: cs' => by
    intro hab hbc
    rw [listCmp_cons_lt] at hab hbc ⊢
    rcases hab with hab | ⟨hab, hab'⟩
    · rcases hbc with hbc | ⟨hbc, hbc'⟩
      · exact Or.inl (h.lt_trans a b c hab hbc)
      · have hb := (h.eq_iff b c).1 hbc
        subst hb
        exact Or.inl hab
    · have ha := (h.eq_iff a b).1 hab
      subst ha
      rcases hbc with hbc | ⟨hbc, hbc'⟩
      · exact Or.inl hbc
      · exact Or.inr ⟨hbc, listCmp_lt_trans h as' bs' cs' hab' hbc'⟩

theorem listCmp_laws {α : Type} {cmp : α → α → Ordering} (h : CmpLaws cmp) :
    CmpLaws (listCmp cmp) :=
  ⟨listCmp_eq_iff h, listCmp_swap h, listCmp_lt_trans h⟩

theorem prodCmp_laws {α β : Type} {c₁ : α → α → Ordering} {c₂ : β → β → Ordering}
    (h₁ : CmpLaws c₁) (h₂ : CmpLaws c₂) : CmpLaws (prodCmp c₁ c₂) := by
  constructor
  · rintro ⟨xa, xb⟩ ⟨ya, yb⟩
    simp only [prodCmp]
    rcases ho : c₁ xa ya with _ | _ | _
    · simp only [Prod.mk.injEq]
      constructor
      · intro hc; cases hc
      · rintro ⟨h1, _⟩
        subst h1
        rw [(h₁.eq_iff xa xa).2 rfl] at ho
        cases ho
    · rw [h₂.eq_iff]
      simp [Prod.mk.injEq, (h₁.eq_iff xa ya).1 ho]
    · simp only [Prod.mk.injEq]
      constructor
      · intro hc; cases hc
      · rintro ⟨h1, _⟩
        subst h1
        rw [(h₁.eq_iff xa xa).2 rfl] at ho
        cases ho
  · rintro ⟨xa, xb⟩ ⟨ya, yb⟩
    simp only [prodCmp]
    rw [h₁.swap_eq xa ya]
    rcases ho : c₁ xa ya with _ | _ | _ <;>
      simp [Ordering.swap, h₂.swap_eq xb yb]
  · have key : ∀ x y : α × β, prodCmp c₁ c₂ x y = Ordering.lt ↔
        c₁ x.1 y.1 = Ordering.lt ∨
          (c₁ x.1 y.1 = Ordering.eq ∧ c₂ x.2 y.2 = Ordering.lt) := by
      intro x y
      simp only [prodCmp]
      rcases c₁ x.1 y.1 with _ | _ | _ <;> simp
    intro x y z hab hbc
    rw [key] at hab hbc ⊢
    rcases hab with hab | ⟨hab, hab'⟩
    · rcases hbc with hbc | ⟨hbc, hbc'⟩
      · exact Or.inl (h₁.lt_trans _ _ _ hab hbc)
      · have hb := (h₁.eq_iff y.1 z.1).1 hbc
        rw [hb] at hab
        exact Or.inl hab
    · have ha := (h₁.eq_iff x.1 y.1).1 hab
      rcases hbc with hbc | ⟨hbc, hbc'⟩
      · rw [← ha] at hbc
        exact Or.inl hbc
      · rw [← ha] at hbc
        exact Or.inr ⟨hbc, h₂.lt_trans _ _ _ hab' hbc'⟩

theorem CmpLaws.ne_gt_iff {α : Type} {cmp : α → α → Ordering} (h : CmpLaws cmp)
    {a b : α} : cmp a b ≠ Ordering.gt ↔ cmp a b = Ordering.lt ∨ a = b := by
  rcases ho : cmp a b with _ | _ | _ <;> simp [ho, ← h.eq_iff a b]

theorem CmpLaws.gt_iff {α : Type} {cmp : α → α → Ordering} (h : CmpLaws cmp)
    {a b : α} : cmp a b = Ordering.gt ↔ cmp b a = Ordering.lt := by
  rw [h.swap_eq b a]
  rcases ho : cmp b a with _ | _ | _ <;> simp [Ordering.swap]

theorem CmpLaws.le_total {α : Type} {cmp : α → α → Ordering} (h : CmpLaws cmp)
    (a b : α) : cmp a b ≠ Ordering.gt ∨ cmp b a ≠ Ordering.gt := by
  by_cases hab : cmp a b = Ordering.gt
  · right
    rw [h.gt_iff] at hab
    simp [hab]
  · left; exact hab

theorem CmpLaws.le_trans {α : Type} {cmp : α → α → Ordering} (h : CmpLaws cmp)
    {a b c : α} (hab : cmp a b ≠ Ordering.gt) (hbc : cmp b c ≠ Ordering.gt) :
    cmp a c ≠ Ordering.gt := by
  rw [h.ne_gt_iff] at hab hbc ⊢
  rcases hab with hab | hab
  · rcases hbc with hbc | hbc
    · exact Or.inl (h.lt_trans _ _ _ hab hbc)
    · subst hbc; exact Or.inl hab
  · subst hab; exact hbc

theorem CmpLaws.antisymm {α : Type} {cmp : α → α → Ordering} (h : CmpLaws cmp)
    {a b : α} (hab : cmp a b ≠ Ordering.gt) (hba : cmp b a ≠ Ordering.gt) :
    a = b := by
  rw [h.ne_gt_iff] at hab hba
  rcases hab with hab | hab
  · rcases hba with hba | hba
    · have := h.lt_trans _ _ _ hab hba
      rw [(h.eq_iff a a).2 rfl] at this
      cases this
    · exact hba.symm
  · exact hab

/-! ## Character-list string utilities

These model the handful of Rust `str` operations the sources use
(`trim`, `split_whitespace`, `split(c)`, `join`, `find`, `contains`),
restricted to ASCII whitespace and ASCII delimiters. -/

/-- ASCII whitespace, the fragment of Rust `char::is_whitespace` exercised
by the sources. -/
def isWsChar (c : Char) : Bool := c = ' ' || c = '\t' || c = '\n' || c = '\r'

/-- Drops trailing whitespace. -/
def dropTrailingWs (l : List Char) : List Char :=
  (l.reverse.dropWhile isWsChar).reverse

/-- Models Rust `str::trim`. -/
def trimWs (l : List Char) : List Char := dropTrailingWs (l.dropWhile isWsChar)

/-- Accumulator-based splitting on whitespace. -/
def wordsAux : List Char → List Char → List (List Char)
  | [], acc => if acc = [] then [] else [acc.reverse]
  | c :: cs, acc =>
    if isWsChar c then
      if acc = [] then wordsAux cs [] else acc.reverse :: wordsAux cs []
    else wordsAux cs (c :: acc)

/-- Models Rust `str::split_whitespace`. -/
def words (l : List Char) : List (List Char) := wordsAux l []

/-- Joining a list of pieces with a separator; models Rust `join`. -/
def joinSep (sep : List Char) : List (List Char) → List Char
  | [] => []
  | [x] => x
  | x :: y :: t => x ++ sep ++ joinSep sep (y :: t)

def splitOnCharAux (c : Char) : List Char → List Char → List (List Char)
  | [], acc => [acc.reverse]
  | x :: xs, acc =>
    if x = c then acc.reverse :: splitOnCharAux c xs []
    else splitOnCharAux c xs (x :: acc)

/-- Models Rust `str::split(c)` (keeps empty pieces). -/
def splitOnChar (c : Char) (l : List Char) : List (List Char) :=
  splitOnCharAux c l []

/-- First index at which `pat` occurs in `l`; models Rust `str::find` with a
string pattern. -/
def findSubstr (l pat : List Char) : Option Nat :=
  (List.range (l.length + 1)).find? (fun i => pat.isPrefixOf (l.drop i))

/-- Models Rust `str::contains` with a string pattern. -/
def containsSubstr (l pat : List Char) : Bool := (findSubstr l pat).isSome

/-- Removes duplicates keeping the first occurrence, mirroring the
`HashSet`-based `Vec::retain` in `sort_classes`. -/
def dedupFirstAux (seen : List (List Char)) : List (List Char) → List (List Char)
  | [] => []
  | x :: xs =>
    if x ∈ seen then dedupFirstAux seen xs
    else x :: dedupFirstAux (x :: seen) xs

theorem wordsAux_tokens : ∀ (l acc : List Char),
    (∀ c ∈ acc, isWsChar c = false) →
    ∀ t ∈ wordsAux l acc, t ≠ [] ∧ ∀ c ∈ t, isWsChar c = false
  | [], acc => by
    intro hacc t ht
    simp only [wordsAux] at ht
    by_cases hn : acc = []
    · simp [hn] at ht
    · simp [hn] at ht
      subst ht
      refine ⟨by simpa using hn, ?_⟩
      intro c hc
      exact hacc c (by simpa using hc)
  | c :: cs, acc => by
    intro hacc t ht
    simp only [wordsAux] at ht
    by_cases hw : isWsChar c
    · simp only [hw, if_true] at ht
      by_cases hn : acc = []
      · simp only [hn, if_true] at ht
        exact wordsAux_tokens cs [] (by simp) t ht
      · simp only [hn, if_false] at ht
        rcases List.mem_cons.1 ht with h | h
        · subst h
          refine ⟨by simpa using hn, ?_⟩
          intro x hx
          exact hacc x (by simpa using hx)
        · exact wordsAux_tokens cs [] (by simp) t h
    · simp only [hw, if_false] at ht
      refine wordsAux_tokens cs (c :: acc) ?_ t ht
      intro x hx
      rcases List.mem_cons.1 hx with h | h
      · subst h; simpa using hw
      · exact hacc x h

theorem words_tokens {l : List Char} {t : List Char} (ht : t ∈ words l) :
    t ≠ [] ∧ ∀ c ∈ t, isWsChar c = false :=
  wordsAux_tokens l [] (by simp) t ht

theorem wordsAux_append_token : ∀ (t rest acc : List Char),
    (∀ c ∈ t, isWsChar c = false) →
    wordsAux (t ++ rest) acc = wordsAux rest (t.reverse ++ acc)
  | [], rest, acc => by simp
  | c :: t', rest, acc => by
    intro h
    have hc : isWsChar c = false := h c (by simp)
    have ih := wordsAux_append_token t' rest (c :: acc)
      (fun x hx => h x (by simp [hx]))
    show wordsAux (c :: t' ++ rest) acc = wordsAux rest ((c :: t').reverse ++ acc)
    rw [List.cons_append]
    rw [show wordsAux (c :: (t' ++ rest)) acc = wordsAux (t' ++ rest) (c :: acc) by
      simp [wordsAux, hc]]
    rw [ih]
    congr 1
    simp

theorem joinSep_cons_of_ne_nil {sep x : List Char} {ts : List (List Char)}
    (h : ts ≠ []) : joinSep sep (x :: ts) = x ++ sep ++ joinSep sep ts := by
  cases ts with
  | nil => cases h rfl
  | cons y t => rfl

theorem words_joinSep : ∀ ts : List (List Char),
    (∀ t ∈ ts, t ≠ [] ∧ ∀ c ∈ t, isWsChar c = false) →
    words (joinSep [' '] ts) = ts
  | [] => by intro _; rfl
  | [t] => by
    intro h
    obtain ⟨hne, hws⟩ := h t (by simp)
    show wordsAux (joinSep [' '] [t]) [] = [t]
    have : joinSep [' '] [t] = t ++ [] := by simp [joinSep]
    rw [this, wordsAux_append_token t [] [] hws]
    simp [wordsAux, hne]
  | t :: y :: ts => by
    intro h
    obtain ⟨hne, hws⟩ := h t (by simp)
    show wordsAux (joinSep [' '] (t :: y :: ts)) [] = t :: y :: ts
    have hj : joinSep [' '] (t :: y :: ts) =
        t ++ (' ' :: joinSep [' '] (y :: ts)) := by
      rw [joinSep_cons_of_ne_nil (by simp)]
      simp
    rw [hj, wordsAux_append_token t _ [] hws]
    have hrev : t.reverse ++ [] = t.reverse := by simp
    rw [hrev]
    have hrne : t.reverse ≠ [] := by simpa using hne
    simp only [wordsAux, show isWsChar ' ' = true by rfl, if_true, hrne, if_false]
    rw [List.reverse_reverse]
    have := words_joinSep (y :: ts) (fun u hu => h u (by simp [hu]))
    exact congrArg (t :: ·) this

theorem wordsAux_all_ws : ∀ (w acc : List Char), (∀ c ∈ w, isWsChar c = true) →
    wordsAux w acc = if acc = [] then [] else [acc.reverse]
  | [], acc => by intro _; rfl
  | c :: w', acc => by
    intro h
    have hc : isWsChar c = true := h c (by simp)
    simp only [wordsAux, hc, if_true]
    by_cases hn : acc = []
    · simp only [hn, if_true]
      rw [wordsAux_all_ws w' [] (fun x hx => h x (by simp [hx]))]
      simp
    · simp only [hn, if_false]
      rw [wordsAux_all_ws w' [] (fun x hx => h x (by simp [hx]))]
      simp

theorem wordsAux_append_ws : ∀ (l w acc : List Char),
    (∀ c ∈ w, isWsChar c = true) →
    wordsAux (l ++ w) acc = wordsAux l acc
  | [], w, acc => by
    intro h
    rw [List.nil_append, wordsAux_all_ws w acc h]
    rfl
  | c :: l', w, acc => by
    intro h
    simp only [List.cons_append, wordsAux]
    by_cases hw : isWsChar c <;> simp only [hw, if_true, if_false]
    · by_cases hn : acc = [] <;> simp only [hn, if_true, if_false]
      · exact wordsAux_append_ws l' w [] h
      · exact congrArg (acc.reverse :: ·) (wordsAux_append_ws l' w [] h)
    · exact wordsAux_append_ws l' w (c :: acc) h

theorem words_dropWhile_ws : ∀ l : List Char,
    words (l.dropWhile isWsChar) = words l
  | [] => rfl
  | c :: cs => by
    by_cases hw : isWsChar c
    · rw [List.dropWhile_cons]
      simp only [hw, if_true]
      rw [words_dropWhile_ws cs]
      show words cs = wordsAux (c :: cs) []
      simp [words, wordsAux, hw]
    · rw [List.dropWhile_cons]
      simp [hw]

theorem dropTrailingWs_spec (l : List Char) :
    l = dropTrailingWs l ++ (l.reverse.takeWhile isWsChar).reverse ∧
      (∀ c ∈ (l.reverse.takeWhile isWsChar).reverse, isWsChar c = true) := by
  constructor
  · conv_lhs => rw [← List.reverse_reverse l,
      ← List.takeWhile_append_dropWhile (p := isWsChar) (l := l.reverse)]
    rw [List.reverse_append]
    rfl
  · intro c hc
    rw [List.mem_reverse] at hc
    exact List.mem_takeWhile_imp hc

theorem words_dropTrailingWs (l : List Char) :
    words (dropTrailingWs l) = words l := by
  obtain ⟨hdec, hws⟩ := dropTrailingWs_spec l
  conv_rhs => rw [hdec]
  exact (wordsAux_append_ws (dropTrailingWs l) _ [] hws).symm

theorem words_trimWs (l : List Char) : words (trimWs l) = words l := by
  unfold trimWs
  rw [words_dropTrailingWs, words_dropWhile_ws]

theorem dropWhile_eq_self_of_head {p : Char → Bool} {l : List Char}
    (h : ∀ c, l.head? = some c → p c = false) : l.dropWhile p = l := by
  cases l with
  | nil => rfl
  | cons x xs =>
    rw [List.dropWhile_cons, h x rfl]
    simp

theorem dropTrailingWs_eq_self {l : List Char}
    (h : ∀ c, l.getLast? = some c → isWsChar c = false) : dropTrailingWs l = l := by
  unfold dropTrailingWs
  rw [dropWhile_eq_self_of_head, List.reverse_reverse]
  intro c hc
  rw [List.head?_reverse] at hc
  exact h c hc

theorem trimWs_eq_self {l : List Char}
    (h1 : ∀ c, l.head? = some c → isWsChar c = false)
    (h2 : ∀ c, l.getLast? = some c → isWsChar c = false) : trimWs l = l := by
  unfold trimWs
  rw [dropWhile_eq_self_of_head h1, dropTrailingWs_eq_self h2]

theorem joinSep_ne_nil {x : List Char} {ts : List (List Char)} (hx : x ≠ []) :
    joinSep [' '] (x :: ts) ≠ [] := by
  cases ts with
  | nil => simpa [joinSep]
  | cons y t =>
    rw [joinSep_cons_of_ne_nil (by simp)]
    simp [hx]

theorem joinSep_head? : ∀ (x : List Char) (ts : List (List Char)), x ≠ [] →
    (joinSep [' '] (x :: ts)).head? = x.head?
  | x, [], _ => rfl
  | x, y :: t, hx => by
    rw [joinSep_cons_of_ne_nil (by simp), List.append_assoc, List.head?_append]
    cases x with
    | nil => cases hx rfl
    | cons c cs => rfl

theorem joinSep_getLast? : ∀ (x : List Char) (ts : List (List Char)),
    (∀ u ∈ ts, u ≠ []) →
    (joinSep [' '] (x :: ts)).getLast? = ((x :: ts).getLast (by simp)).getLast?
  | x, [], _ => rfl
  | x, y :: t, h => by
    rw [joinSep_cons_of_ne_nil (by simp), List.append_assoc, List.getLast?_append]
    have hy : y ≠ [] := h y (by simp)
    have hrec := joinSep_getLast? y t (fun u hu => h u (by simp [hu]))
    have hne : joinSep [' '] (y :: t) ≠ [] := joinSep_ne_nil hy
    have h2 : ([' '] ++ joinSep [' '] (y :: t)).getLast? =
        (joinSep [' '] (y :: t)).getLast? := by
      rw [List.getLast?_append]
      rcases hl : (joinSep [' '] (y :: t)).getLast? with _ | c
      · rcases List.exists_cons_of_ne_nil hne with ⟨a, as', ha⟩
        rw [ha] at hl
        simp [List.getLast?_eq_getLast] at hl
      · rfl
    rw [h2, hrec]
    have : (x :: y :: t).getLast (by simp) = (y :: t).getLast (by simp) := by
      rw [List.getLast_cons]
    rw [this]
    rcases hl : ((y :: t).getLast (by simp)).getLast? with _ | c
    · have hg : (y :: t).getLast (by simp) ∈ y :: t := List.getLast_mem _
      have : (y :: t).getLast (by simp) ≠ [] := h _ hg
      rcases List.exists_cons_of_ne_nil this with ⟨a, as', ha⟩
      rw [ha] at hl
      simp [List.getLast?_eq_getLast] at hl
    · rfl

theorem trimWs_joinSep {ts : List (List Char)}
    (h : ∀ t ∈ ts, t ≠ [] ∧ ∀ c ∈ t, isWsChar c = false) :
    trimWs (joinSep [' '] ts) = joinSep [' '] ts := by
  cases ts with
  | nil => rfl
  | cons x t =>
    have hx : x ≠ [] := (h x (by simp)).1
    apply trimWs_eq_self
    · intro c hc
      rw [joinSep_head? x t hx] at hc
      refine (h x (by simp)).2 c ?_
      cases x with
      | nil => cases hx rfl
      | cons a as' =>
        simp at hc
        simp [hc]
    · intro c hc
      rw [joinSep_getLast? x t (fun u hu => (h u (by simp [hu])).1)] at hc
      have hmem : (x :: t).getLast (by simp) ∈ x :: t := List.getLast_mem _
      refine (h _ hmem).2 c ?_
      have hne : (x :: t).getLast (by simp) ≠ [] := (h _ hmem).1
      rcases List.exists_cons_of_ne_nil hne with ⟨a, as', ha⟩
      rw [ha] at hc ⊢
      rw [List.getLast?_eq_getLast _ (by simp)] at hc
      simp at hc
      rw [← hc]
      exact List.getLast_mem _

theorem contains_of_mem {l : List Char} {c : Char} (h : c ∈ l) :
    l.contains c = true := by
  exact List.elem_iff.2 h

theorem not_contains_sp {l : List Char} (h : ∀ c ∈ l, isWsChar c = false) :
    l.contains ' ' = false := by
  by_cases hc : (' ' : Char) ∈ l
  · have := h ' ' hc
    simp [isWsChar] at this
  · rcases hb : l.contains ' ' with _ | _
    · rfl
    · exact absurd (List.elem_iff.1 hb) hc

theorem dedupFirstAux_mem : ∀ (seen l : List (List Char)) (x : List Char),
    x ∈ dedupFirstAux seen l → x ∈ l ∧ x ∉ seen
  | seen, [], x => by simp [dedupFirstAux]
  | seen, y :: ys, x => by
    intro hx
    simp only [dedupFirstAux] at hx
    by_cases hy : y ∈ seen
    · simp only [hy, if_true] at hx
      have := dedupFirstAux_mem seen ys x hx
      exact ⟨by simp [this.1], this.2⟩
    · simp only [hy, if_false] at hx
      rcases List.mem_cons.1 hx with h | h
      · subst h
        exact ⟨by simp, hy⟩
      · have := dedupFirstAux_mem (y :: seen) ys x h
        refine ⟨by simp [this.1], fun hc => this.2 (by simp [hc])⟩

theorem dedupFirstAux_nodup : ∀ (seen l : List (List Char)),
    (dedupFirstAux seen l).Nodup
  | seen, [] => by simp [dedupFirstAux]
  | seen, y :: ys => by
    simp only [dedupFirstAux]
    by_cases hy : y ∈ seen
    · simp only [hy, if_true]
      exact dedupFirstAux_nodup seen ys
    · simp only [hy, if_false]
      refine List.nodup_cons.2 ⟨?_, dedupFirstAux_nodup (y :: seen) ys⟩
      intro hc
      exact (dedupFirstAux_mem (y :: seen) ys y hc).2 (by simp)

theorem dedupFirstAux_of_nodup : ∀ (seen l : List (List Char)), l.Nodup →
    (∀ x ∈ l, x ∉ seen) → dedupFirstAux seen l = l
  | seen, [] => by intro _ _; rfl
  | seen, y :: ys => by
    intro hnd hdisj
    simp only [dedupFirstAux]
    have hy : y ∉ seen := hdisj y (by simp)
    simp only [hy, if_false]
    rw [dedupFirstAux_of_nodup (y :: seen) ys (List.nodup_cons.1 hnd).2]
    intro x hx
    simp only [List.mem_cons, not_or]
    exact ⟨fun hc => (List.nodup_cons.1 hnd).1 (hc ▸ hx),
      hdisj x (by simp [hx])⟩

theorem splitOnCharAux_ne_nil : ∀ (c : Char) (l acc : List Char),
    splitOnCharAux c l acc ≠ []
  | c, [], acc => by simp [splitOnCharAux]
  | c, x :: xs, acc => by
    simp only [splitOnCharAux]
    by_cases hx : x = c <;> simp [hx]
    exact splitOnCharAux_ne_nil c xs (x :: acc)

theorem joinSep_splitOnCharAux : ∀ (c : Char) (l acc : List Char),
    joinSep [c] (splitOnCharAux c l acc) = acc.reverse ++ l
  | c, [], acc => by simp [splitOnCharAux, joinSep]
  | c, x :: xs, acc => by
    simp only [splitOnCharAux]
    by_cases hx : x = c
    · simp only [hx, if_true]
      rw [joinSep_cons_of_ne_nil (splitOnCharAux_ne_nil c xs [])]
      rw [joinSep_splitOnCharAux c xs []]
      simp
    · simp only [hx, if_false]
      rw [joinSep_splitOnCharAux c xs (x :: acc)]
      simp

theorem joinSep_splitOnChar (c : Char) (l : List Char) :
    joinSep [c] (splitOnChar c l) = l := by
  unfold splitOnChar
  rw [joinSep_splitOnCharAux]
  simp

theorem eq_of_parts {l₁ l₂ : List (List Char)} (h₁ : l₁ ≠ []) (h₂ : l₂ ≠ [])
    (hd : l₁.dropLast = l₂.dropLast)
    (hl : l₁.getLastD [] = l₂.getLastD []) : l₁ = l₂ := by
  rw [List.getLastD_eq_getLast?, List.getLastD_eq_getLast?,
    List.getLast?_eq_getLast _ h₁, List.getLast?_eq_getLast _ h₂] at hl
  simp only [Option.getD_some] at hl
  rw [← List.dropLast_append_getLast h₁, ← List.dropLast_append_getLast h₂,
    hd, hl]

/-! ## Sorter data tables (`src/sorter/categories.rs`) -/

/-- `CATEGORY_ORDER` of `categories.rs`: the built-in category order. -/
def CATEGORY_ORDER : List String :=
  ["layout", "flexbox-grid", "spacing", "sizing", "typography", "backgrounds",
   "borders", "effects", "filters", "tables", "transitions", "transforms",
   "interactivity", "svg", "accessibility", "unknown"]

/-- `CLASS_CATEGORIES` of `categories.rs`: class-name prefixes mapped to
categories.  The Rust `HashMap` iterates in arbitrary order, but the
longest-match lookup below is order-independent because two distinct
prefixes of equal length cannot both be prefixes of the same token, so a
list faithfully replaces the map. -/
def CLASS_CATEGORIES : List (String × String) :=
  [("aspect-", "layout"), ("container", "layout"), ("columns-", "layout"),
   ("break-", "layout"), ("box-", "layout"), ("block", "layout"),
   ("inline", "layout"), ("hidden", "layout"), ("table", "layout"),
   ("float-", "layout"), ("clear-", "layout"), ("isolate", "layout"),
   ("object-", "layout"), ("overflow-", "layout"), ("overscroll-", "layout"),
   ("position", "layout"), ("static", "layout"), ("fixed", "layout"),
   ("absolute", "layout"), ("relative", "layout"), ("sticky", "layout"),
   ("inset-", "layout"), ("top-", "layout"), ("right-", "layout"),
   ("bottom-", "layout"), ("left-", "layout"), ("z-", "layout"),
   ("visible", "layout"), ("invisible", "layout"),
   ("flex", "flexbox-grid"), ("grid", "flexbox-grid"),
   ("order-", "flexbox-grid"), ("col-", "flexbox-grid"),
   ("row-", "flexbox-grid"), ("auto-", "flexbox-grid"),
   ("gap-", "flexbox-grid"), ("justify-", "flexbox-grid"),
   ("items-", "flexbox-grid"), ("content-", "flexbox-grid"),
   ("self-", "flexbox-grid"), ("place-", "flexbox-grid"),
   ("p-", "spacing"), ("px-", "spacing"), ("py-", "spacing"),
   ("pt-", "spacing"), ("pr-", "spacing"), ("pb-", "spacing"),
   ("pl-", "spacing"), ("m-", "spacing"), ("mx-", "spacing"),
   ("my-", "spacing"), ("mt-", "spacing"), ("mr-", "spacing"),
   ("mb-", "spacing"), ("ml-", "spacing"), ("space-", "spacing"),
   ("w-", "sizing"), ("min-w-", "sizing"), ("max-w-", "sizing"),
   ("h-", "sizing"), ("min-h-", "sizing"), ("max-h-", "sizing"),
   ("size-", "sizing"),
   ("font-", "typography"), ("text-", "typography"),
   ("antialiased", "typography"), ("subpixel-antialiased", "typography"),
   ("italic", "typography"), ("not-italic", "typography"),
   ("tracking-", "typography"), ("leading-", "typography"),
   ("list-", "typography"), ("decoration-", "typography"),
   ("underline", "typography"), ("overline", "typography"),
   ("line-through", "typography"), ("no-underline", "typography"),
   ("uppercase", "typography"), ("lowercase", "typography"),
   ("capitalize", "typography"), ("normal-case", "typography"),
   ("truncate", "typography"), ("overflow-ellipsis", "typography"),
   ("overflow-clip", "typography"),
   ("bg-", "backgrounds"), ("from-", "backgrounds"), ("via-", "backgrounds"),
   ("to-", "backgrounds"),
   ("border", "borders"), ("divide-", "borders"), ("outline-", "borders"),
   ("ring-", "borders"), ("rounded", "borders"),
   ("shadow", "effects"), ("opacity-", "effects"), ("mix-blend-", "effects"),
   ("blur-", "filters"), ("brightness-", "filters"), ("contrast-", "filters"),
   ("drop-shadow", "filters"), ("grayscale", "filters"),
   ("hue-rotate-", "filters"), ("invert", "filters"), ("saturate-", "filters"),
   ("sepia", "filters"), ("backdrop-", "filters"),
   ("border-collapse", "tables"), ("border-separate", "tables"),
   ("table-", "tables"),
   ("transition", "transitions"), ("duration-", "transitions"),
   ("ease-", "transitions"), ("delay-", "transitions"),
   ("animate-", "transitions"),
   ("transform", "transforms"), ("transform-", "transforms"),
   ("translate-", "transforms"), ("rotate-", "transforms"),
   ("skew-", "transforms"), ("scale-", "transforms"),
   ("origin-", "transforms"),
   ("accent-", "interactivity"), ("appearance-", "interactivity"),
   ("cursor-", "interactivity"), ("caret-", "interactivity"),
   ("pointer-events-", "interactivity"), ("resize", "interactivity"),
   ("scroll-", "interactivity"), ("select-", "interactivity"),
   ("touch-", "interactivity"), ("user-select-", "interactivity"),
   ("will-change-", "interactivity"),
   ("fill-", "svg"), ("stroke-", "svg"),
   ("sr-only", "accessibility"), ("not-sr-only", "accessibility")]

/-! ## Sorter (`src/sorter/mod.rs`) -/

/-- Models `str::starts_with` with a string pattern. -/
def startsWithStr (p : String) (l : List Char) : Bool := p.data.isPrefixOf l

/-- Longest-matching-prefix scan over `CLASS_CATEGORIES` (the fallback loop
of `find_category_optimized`): keeps the first entry of maximal length,
defaulting to `"unknown"`. -/
def find_category_general (base : List Char) : String :=
  (CLASS_CATEGORIES.foldl
    (fun acc entry =>
      if startsWithStr entry.1 base ∧ entry.1.length > acc.2
      then (entry.2, entry.1.length) else acc)
    ("unknown", 0)).1

/-- Models `TailwindSorter::find_category_optimized`: fast paths for common
single-character prefixes, then the general longest-prefix scan. -/
def find_category_optimized (base : List Char) : String :=
  if startsWithStr "p-" base || startsWithStr "px-" base ||
     startsWithStr "py-" base || startsWithStr "pt-" base ||
     startsWithStr "pb-" base || startsWithStr "pl-" base ||
     startsWithStr "pr-" base then "spacing"
  else if startsWithStr "m-" base || startsWithStr "mx-" base ||
     startsWithStr "my-" base || startsWithStr "mt-" base ||
     startsWithStr "mb-" base || startsWithStr "ml-" base ||
     startsWithStr "mr-" base then "spacing"
  else if startsWithStr "w-" base then "sizing"
  else if startsWithStr "h-" base then "sizing"
  else find_category_general base

/-- Models `str::strip_prefix(c)` composed with `unwrap_or(self)`. -/
def stripPrefixChar (c : Char) : List Char → List Char
  | [] => []
  | x :: xs => if x = c then xs else x :: xs

/-- Models `TailwindSorter::get_class_category`.  The per-instance memoizing
cache is semantically transparent and omitted.  `rfind(':')` and the slice
after it are modelled by the last piece of `splitOnChar`. -/
def get_class_category (cls : List Char) : String :=
  let base0 := (splitOnChar ':' cls).getLastD []
  let base1 := stripPrefixChar '!' base0
  let base2 := stripPrefixChar '-' base1
  find_category_optimized base2

/-- Models `TailwindSorter::split_variants`: base after the last colon,
variants as the colon-split pieces before it. -/
def split_variants (cls : List Char) : List Char × List (List Char) :=
  let parts := splitOnChar ':' cls
  (parts.getLastD [], parts.dropLast)

/-- Accumulator walk of the enumerated order list. -/
def lastIdxAux (cat : String) : Nat → List String → Option Nat → Option Nat
  | _, [], acc => acc
  | i, x :: xs, acc => lastIdxAux cat (i + 1) xs (if x = cat then some i else acc)

/-- The category-order map built in `new_with_custom_order`:
`HashMap::insert` in `enumerate` order keeps the LAST index for a
duplicated name. -/
def lastIdx (order : List String) (cat : String) : Option Nat :=
  lastIdxAux cat 0 order none

/-- Models `TailwindSorter::get_category_order`: position in the configured
order, or 999 for a category not in the map. -/
def get_category_order (order : List String) (cat : String) : Nat :=
  (lastIdx order cat).getD 999

/-- Byte-wise `str::cmp`, as code-point list comparison (these agree on
UTF-8). -/
def strCmp : List Char → List Char → Ordering := listCmp cmpL

/-- Models `TailwindSorter::compare_classes`: category rank, then base
class, then variant count, then the variant chain. -/
def compare_classes (order : List String) (a b : List Char) : Ordering :=
  let pa := split_variants a
  let pb := split_variants b
  let order_a := get_category_order order (get_class_category pa.1)
  let order_b := get_category_order order (get_class_category pb.1)
  match cmpL order_a order_b with
  | Ordering.eq =>
    match strCmp pa.1 pb.1 with
    | Ordering.eq =>
      match cmpL pa.2.length pb.2.length with
      | Ordering.eq => listCmp strCmp pa.2 pb.2
      | o => o
    | o => o
  | o => o

/-- The sort key whose lexicographic comparison equals `compare_classes`. -/
def sortKey (order : List String) (cls : List Char) :
    Nat × (List Char × (Nat × List (List Char))) :=
  let p := split_variants cls
  (get_category_order order (get_class_category p.1), (p.1, (p.2.length, p.2)))

def keyCmp : (Nat × (List Char × (Nat × List (List Char)))) →
    (Nat × (List Char × (Nat × List (List Char)))) → Ordering :=
  prodCmp cmpL (prodCmp strCmp (prodCmp cmpL (listCmp strCmp)))

theorem compare_classes_eq_keyCmp (order : List String) (a b : List Char) :
    compare_classes order a b = keyCmp (sortKey order a) (sortKey order b) :=
  rfl

theorem strCmp_laws : CmpLaws strCmp := listCmp_laws cmpL_laws

theorem keyCmp_laws : CmpLaws keyCmp :=
  prodCmp_laws cmpL_laws
    (prodCmp_laws strCmp_laws (prodCmp_laws cmpL_laws (listCmp_laws strCmp_laws)))

theorem sortKey_inj {order : List String} {a b : List Char}
    (h : sortKey order a = sortKey order b) : a = b := by
  unfold sortKey split_variants at h
  simp only [Prod.mk.injEq] at h
  obtain ⟨-, hbase, -, hvars⟩ := h
  have hparts : splitOnChar ':' a = splitOnChar ':' b :=
    eq_of_parts (splitOnCharAux_ne_nil ':' a []) (splitOnCharAux_ne_nil ':' b [])
      hvars hbase
  calc a = joinSep [':'] (splitOnChar ':' a) := (joinSep_splitOnChar ':' a).symm
    _ = joinSep [':'] (splitOnChar ':' b) := by rw [hparts]
    _ = b := joinSep_splitOnChar ':' b

theorem compare_classes_laws (order : List String) :
    CmpLaws (compare_classes order) := by
  constructor
  · intro a b
    rw [compare_classes_eq_keyCmp, keyCmp_laws.eq_iff]
    constructor
    · exact sortKey_inj
    · intro h; rw [h]
  · intro a b
    rw [compare_classes_eq_keyCmp, compare_classes_eq_keyCmp,
      keyCmp_laws.swap_eq]
  · intro a b c h1 h2
    rw [compare_classes_eq_keyCmp] at h1 h2 ⊢
    exact keyCmp_laws.lt_trans _ _ _ h1 h2

/-- The token order induced by the comparator: `a` does not come after `b`. -/
def leTok (order : List String) (a b : List Char) : Prop :=
  compare_classes order a b ≠ Ordering.gt

instance (order : List String) : DecidableRel (leTok order) := fun a b =>
  inferInstanceAs (Decidable (compare_classes order a b ≠ Ordering.gt))

instance (order : List String) : IsTotal (List Char) (leTok order) :=
  ⟨fun a b => (compare_classes_laws order).le_total a b⟩

instance (order : List String) : IsTrans (List Char) (leTok order) :=
  ⟨fun _ _ _ => (compare_classes_laws order).le_trans⟩

instance (order : List String) : IsAntisymm (List Char) (leTok order) :=
  ⟨fun _ _ => (compare_classes_laws order).antisymm⟩

/-- The `sort_classes` pipeline, parameterized by the sorting algorithm that
stands in for Rust's `sort_unstable_by` (whose contract fixes only that the
output is a permutation of the input, sorted by the comparator).  Mirrors
`TailwindSorter::sort_classes`: unchanged on trimmed-empty input, the
trimmed single token when the trimmed input has no space, otherwise split
on whitespace, deduplicate keeping first occurrences, sort and rejoin
(returning the sole class directly when deduplication leaves one). -/
def sort_classes_with
    (alg : List (List Char) → List (List Char)) (s : String) : String :=
  let trimmed := trimWs s.data
  if trimmed = [] then s
  else if trimmed.contains ' ' then
    let classes := words trimmed
    let deduped := dedupFirstAux [] classes
    if deduped.length = 1 then ⟨deduped.headD []⟩
    else ⟨joinSep [' '] (alg deduped)⟩
  else ⟨trimmed⟩

/-- Models `TailwindSorter::sort_classes`, instantiating the unstable sort
with insertion sort (any comparison sort yields the same output, which is
what the C5 theorem proves). -/
def sort_classes (order : List String) (s : String) : String :=
  sort_classes_with (List.insertionSort (leTok order)) s

/-- Modelled from the spec: the reference pipeline of claim C5 — split the
input on whitespace, deduplicate keeping the first occurrence, STABLE-sort
by the comparator, and join with single spaces. -/
def ref_sort_classes (order : List String) (s : String) : String :=
  ⟨joinSep [' ']
    (List.insertionSort (leTok order) (dedupFirstAux [] (words s.data)))⟩

/-! ## Trim idempotence and further pipeline lemmas -/

theorem dropWhile_head?_false {p : Char → Bool} {l : List Char} {c : Char}
    (hc : (l.dropWhile p).head? = some c) : p c = false := by
  have hne : l.dropWhile p ≠ [] := by
    intro h; rw [h] at hc; cases hc
  have h1 := List.head_dropWhile_not p l hne
  rw [List.head?_eq_head hne] at hc
  have : (l.dropWhile p).head hne = c := by
    injection hc
  rwa [this] at h1

theorem head?_dropTrailingWs {m : List Char} {c : Char}
    (h : (dropTrailingWs m).head? = some c) : m.head? = some c := by
  obtain ⟨hdec, -⟩ := dropTrailingWs_spec m
  rw [hdec, List.head?_append, h]
  rfl

theorem trimWs_head?_false {l : List Char} {c : Char}
    (h : (trimWs l).head? = some c) : isWsChar c = false := by
  unfold trimWs at h
  exact dropWhile_head?_false (head?_dropTrailingWs h)

theorem trimWs_getLast?_false {l : List Char} {c : Char}
    (h : (trimWs l).getLast? = some c) : isWsChar c = false := by
  unfold trimWs dropTrailingWs at h
  rw [List.getLast?_reverse] at h
  exact dropWhile_head?_false h

theorem trimWs_idem (l : List Char) : trimWs (trimWs l) = trimWs l :=
  trimWs_eq_self (fun _ hc => trimWs_head?_false hc)
    (fun _ hc => trimWs_getLast?_false hc)

theorem mem_of_head? {l : List Char} {c : Char} (h : l.head? = some c) :
    c ∈ l := by
  cases l with
  | nil => cases h
  | cons x xs =>
    simp at h
    simp [h]

theorem mem_of_getLast? {l : List Char} {c : Char} (h : l.getLast? = some c) :
    c ∈ l := by
  have hne : l ≠ [] := by
    intro he; rw [he] at h; cases h
  rw [List.getLast?_eq_getLast _ hne] at h
  injection h with h
  rw [← h]
  exact List.getLast_mem hne

theorem trimWs_eq_self_of_all {l : List Char}
    (h : ∀ c ∈ l, isWsChar c = false) : trimWs l = l :=
  trimWs_eq_self (fun c hc => h c (mem_of_head? hc))
    (fun c hc => h c (mem_of_getLast? hc))

/-- Contract of Rust `sort_unstable_by`: the output is a permutation of the
input, sorted by the comparator. -/
def SortAlgOk (order : List String) (alg : List (List Char) → List (List Char)) :
    Prop :=
  ∀ l, (alg l).Perm l ∧ List.Sorted (leTok order) (alg l)

theorem insertionSort_algOk (order : List String) :
    SortAlgOk order (List.insertionSort (leTok order)) := fun l =>
  ⟨List.perm_insertionSort (leTok order) l,
   List.sorted_insertionSort (leTok order) l⟩

theorem sorted_perm_unique {order : List String} {l₁ l₂ : List (List Char)}
    (hp : l₁.Perm l₂) (h₁ : List.Sorted (leTok order) l₁)
    (h₂ : List.Sorted (leTok order) l₂) : l₁ = l₂ :=
  List.eq_of_perm_of_sorted hp h₁ h₂

/-! ## Sorter claims -/

theorem deduped_tokens {T : List Char} {x : List Char}
    (hx : x ∈ dedupFirstAux [] (words T)) :
    x ≠ [] ∧ ∀ c ∈ x, isWsChar c = false :=
  words_tokens (dedupFirstAux_mem [] (words T) x hx).1

/-- C5 (amended): on every input whose trimmed form contains a space
character, `sort_classes` — with ANY sorting algorithm satisfying the
contract of Rust's `sort_unstable_by` — equals the spec's reference
pipeline (split on whitespace, deduplicate keeping the first occurrence,
stable-sort by the comparator, join with single spaces).  In particular the
implementation's unstable sort agrees with the stable-sort reference. -/
theorem C5_sort_refines_reference (order : List String)
    (alg : List (List Char) → List (List Char)) (halg : SortAlgOk order alg)
    (s : String) (hsp : (trimWs s.data).contains ' ' = true) :
    sort_classes_with alg s = ref_sort_classes order s := by
  have hmem : (' ' : Char) ∈ trimWs s.data := List.elem_iff.1 hsp
  have hne : trimWs s.data ≠ [] := List.ne_nil_of_mem hmem
  unfold sort_classes_with ref_sort_classes
  simp only [hne, if_false, hsp, if_true]
  rw [show words s.data = words (trimWs s.data) from (words_trimWs s.data).symm]
  set D := dedupFirstAux [] (words (trimWs s.data)) with hD
  by_cases hlen : D.length = 1
  · rcases List.length_eq_one.1 hlen with ⟨x, hx⟩
    simp only [hlen, if_true, hx]
    rfl
  · simp only [hlen, if_false]
    have hperm : (alg D).Perm (List.insertionSort (leTok order) D) :=
      (halg D).1.trans (List.perm_insertionSort (leTok order) D).symm
    have heq : alg D = List.insertionSort (leTok order) D :=
      sorted_perm_unique hperm (halg D).2
        (List.sorted_insertionSort (leTok order) D)
    rw [heq]

/-- C5 counterexample to the claim as stated: `"m-2\tflex"` has two
whitespace-separated tokens, yet `sort_classes` returns it unchanged (the
fast path tests only for a space character), differing from the reference
pipeline. -/
theorem C5_counterexample :
    (words ("m-2\tflex").data).length = 2 ∧
      sort_classes CATEGORY_ORDER "m-2\tflex" ≠
        ref_sort_classes CATEGORY_ORDER "m-2\tflex" := by
  constructor
  · rfl
  · decide

theorem C5_witness :
    sort_classes CATEGORY_ORDER "p-4 flex m-2" =
      ref_sort_classes CATEGORY_ORDER "p-4 flex m-2" :=
  C5_sort_refines_reference CATEGORY_ORDER _
    (insertionSort_algOk CATEGORY_ORDER) "p-4 flex m-2" (by decide)

/-- C4: sorting is idempotent — for every input string and every sorting
algorithm meeting the `sort_unstable_by` contract,
`sort_classes (sort_classes s) = sort_classes s`. -/
theorem C4_sort_idempotent (order : List String)
    (alg : List (List Char) → List (List Char)) (halg : SortAlgOk order alg)
    (s : String) :
    sort_classes_with alg (sort_classes_with alg s) = sort_classes_with alg s := by
  by_cases h1 : trimWs s.data = []
  · have hs : sort_classes_with alg s = s := by
      unfold sort_classes_with
      simp [h1]
    rw [hs, hs]
  · by_cases h2 : (trimWs s.data).contains ' ' = true
    · -- sorting path
      have hs : sort_classes_with alg s =
          (if (dedupFirstAux [] (words (trimWs s.data))).length = 1 then
            (⟨(dedupFirstAux [] (words (trimWs s.data))).headD []⟩ : String)
          else ⟨joinSep [' '] (alg (dedupFirstAux [] (words (trimWs s.data))))⟩) := by
        unfold sort_classes_with
        rw [if_neg h1, if_pos h2]
      set D := dedupFirstAux [] (words (trimWs s.data)) with hDdef
      by_cases hlen : D.length = 1
      · rcases List.length_eq_one.1 hlen with ⟨x, hx⟩
        have hres : sort_classes_with alg s = ⟨x⟩ := by
          rw [hs]
          simp [hlen, hx]
        rw [hres]
        have hxtok : x ≠ [] ∧ ∀ c ∈ x, isWsChar c = false :=
          deduped_tokens (by rw [← hDdef, hx]; simp)
        have htrim : trimWs x = x := trimWs_eq_self_of_all hxtok.2
        unfold sort_classes_with
        simp only [show (⟨x⟩ : String).data = x from rfl, htrim]
        rw [if_neg hxtok.1, if_neg (by rw [not_contains_sp hxtok.2]; simp)]
      · have hres : sort_classes_with alg s = ⟨joinSep [' '] (alg D)⟩ := by
          rw [hs]
          simp [hlen]
        rw [hres]
        have hperm : (alg D).Perm D := (halg D).1
        have htoks : ∀ t ∈ alg D, t ≠ [] ∧ ∀ c ∈ t, isWsChar c = false := by
          intro t ht
          exact deduped_tokens (hperm.mem_iff.1 ht)
        rcases hout : alg D with _ | ⟨x, rest⟩
        · -- the sorted list is empty: the result is the empty string
          unfold sort_classes_with
          rw [if_pos (show trimWs (⟨joinSep [' '] []⟩ : String).data = []
            from rfl)]
        · rcases rest with _ | ⟨y, rest'⟩
          · -- a one-element output contradicts `D.length ≠ 1`
            exfalso
            apply hlen
            have := hperm.length_eq
            rw [hout] at this
            exact this.symm
          · -- at least two tokens
            have htoks' : ∀ t ∈ x :: y :: rest', t ≠ [] ∧
                ∀ c ∈ t, isWsChar c = false := by
              rw [← hout]; exact htoks
            have hxne : x ≠ [] := (htoks' x (by simp)).1
            have hr : (⟨joinSep [' '] (alg D)⟩ : String).data =
                joinSep [' '] (x :: y :: rest') := by rw [hout]
            have htrim : trimWs (joinSep [' '] (x :: y :: rest')) =
                joinSep [' '] (x :: y :: rest') := trimWs_joinSep htoks'
            have hjne : joinSep [' '] (x :: y :: rest') ≠ [] :=
              joinSep_ne_nil hxne
            have hsp : (joinSep [' '] (x :: y :: rest')).contains ' ' = true := by
              apply contains_of_mem
              rw [joinSep_cons_of_ne_nil (by simp)]
              simp
            unfold sort_classes_with
            simp only [hr, htrim, if_neg hjne, hsp, if_true]
            have hwords : words (joinSep [' '] (x :: y :: rest')) =
                x :: y :: rest' := words_joinSep _ htoks'
            rw [hwords]
            have hnodupD : D.Nodup := dedupFirstAux_nodup [] _
            have hnodup : (x :: y :: rest').Nodup := by
              rw [← hout]
              exact hperm.symm.nodup hnodupD
            have hded : dedupFirstAux [] (x :: y :: rest') = x :: y :: rest' :=
              dedupFirstAux_of_nodup [] _ hnodup (by simp)
            rw [hded]
            rw [if_neg (by simp)]
            have hsorted : List.Sorted (leTok order) (x :: y :: rest') := by
              rw [← hout]; exact (halg D).2
            have halg2 : alg (x :: y :: rest') = x :: y :: rest' :=
              sorted_perm_unique (halg _).1 (halg _).2 hsorted
            rw [halg2]
    · -- single-token fast path
      have hs : sort_classes_with alg s = ⟨trimWs s.data⟩ := by
        unfold sort_classes_with
        simp only [h1, if_false]
        rw [if_neg h2]
      rw [hs]
      have htrim : trimWs (trimWs s.data) = trimWs s.data := trimWs_idem s.data
      unfold sort_classes_with
      simp only [show (⟨trimWs s.data⟩ : String).data = trimWs s.data from rfl,
        htrim]
      rw [if_neg h1, if_neg h2]

theorem C4_witness :
    sort_classes CATEGORY_ORDER (sort_classes CATEGORY_ORDER "p-4 flex m-2") =
      sort_classes CATEGORY_ORDER "p-4 flex m-2" :=
  C4_sort_idempotent CATEGORY_ORDER _ (insertionSort_algOk CATEGORY_ORDER)
    "p-4 flex m-2"

/-- C6 (amended): empty or whitespace-only input is returned exactly as
given; any other input whose trimmed form contains no space character — in
particular every single-token input — is returned TRIMMED (leading and
trailing whitespace removed), not verbatim. -/
theorem C6_fast_paths (alg : List (List Char) → List (List Char)) (s : String) :
    (trimWs s.data = [] → sort_classes_with alg s = s) ∧
      (trimWs s.data ≠ [] → (trimWs s.data).contains ' ' = false →
        sort_classes_with alg s = ⟨trimWs s.data⟩) := by
  constructor
  · intro h1
    unfold sort_classes_with
    simp [h1]
  · intro h1 h2
    unfold sort_classes_with
    simp only [h1, if_false]
    rw [if_neg (by rw [h2]; simp)]

/-- C6 counterexample to the claim as stated: the single-token input
`" flex "` is not returned unchanged — the fast path returns the trimmed
token. -/
theorem C6_counterexample :
    sort_classes CATEGORY_ORDER " flex " = "flex" ∧
      sort_classes CATEGORY_ORDER " flex " ≠ " flex " := by
  constructor
  · decide
  · decide

theorem C6_witness :
    sort_classes CATEGORY_ORDER "   " = "   " ∧
      sort_classes CATEGORY_ORDER " flex " = ⟨trimWs (" flex ").data⟩ :=
  ⟨(C6_fast_paths _ "   ").1 (by decide),
   (C6_fast_paths _ " flex ").2 (by decide) (by decide)⟩

/-! ## Configuration validation (`src/config.rs`) and claim C10 -/

/-- Models `ConfigManager::get_available_categories`, which returns the
default category order. -/
def get_available_categories : List String := CATEGORY_ORDER

/-- Models the custom-order portion of `ConfigManager::validate_config`
when `sort_order == "custom"`: an empty `custom_order` is an error, the
first name that is not a known category is an error, anything else is
accepted. -/
def validate_custom_order (custom_order : List String) : Except String Unit :=
  if custom_order = [] then
    Except.error "custom_order must be provided when sort_order is custom"
  else
    match custom_order.find? (fun c => !(get_available_categories.contains c)) with
    | some c => Except.error ("Unknown category " ++ c ++ " in custom_order")
    | none => Except.ok ()

theorem lastIdxAux_not_mem {cat : String} :
    ∀ (l : List String) (i : Nat) (acc : Option Nat), cat ∉ l →
      lastIdxAux cat i l acc = acc
  | [], _, _ => by intro _; rfl
  | x :: xs, i, acc => by
    intro h
    have hx : x ≠ cat := fun he => h (by simp [he])
    simp only [lastIdxAux, hx, if_false]
    exact lastIdxAux_not_mem xs (i + 1) acc (fun hc => h (by simp [hc]))

theorem lastIdxAux_lt {cat : String} :
    ∀ (l : List String) (i : Nat) (acc : Option Nat),
      (∀ j, acc = some j → j < i) →
      ∀ j, lastIdxAux cat i l acc = some j → j < i + l.length
  | [], i, acc => by
    intro hacc j hj
    simp only [lastIdxAux] at hj
    have := hacc j hj
    simpa using Nat.lt_of_lt_of_le this (Nat.le_refl i)
  | x :: xs, i, acc => by
    intro hacc j hj
    simp only [lastIdxAux] at hj
    have step : ∀ k, (if x = cat then some i else acc) = some k → k < i + 1 := by
      intro k hk
      by_cases hx : x = cat
      · simp [hx] at hk
        omega
      · simp [hx] at hk
        exact Nat.lt_succ_of_lt (hacc k hk)
    have := lastIdxAux_lt xs (i + 1) _ step j hj
    simpa [Nat.add_comm, Nat.add_assoc, Nat.add_left_comm] using this

theorem lastIdxAux_isSome_of_acc {cat : String} :
    ∀ (l : List String) (i : Nat) (j : Nat),
      (lastIdxAux cat i l (some j)).isSome
  | [], _, _ => rfl
  | x :: xs, i, j => by
    simp only [lastIdxAux]
    by_cases hx : x = cat <;> simp only [hx, if_true, if_false]
    · exact lastIdxAux_isSome_of_acc xs (i + 1) i
    · exact lastIdxAux_isSome_of_acc xs (i + 1) j

theorem lastIdxAux_isSome_of_mem {cat : String} :
    ∀ (l : List String) (i : Nat) (acc : Option Nat), cat ∈ l →
      (lastIdxAux cat i l acc).isSome
  | [], _, _ => by intro h; cases h
  | x :: xs, i, acc => by
    intro h
    simp only [lastIdxAux]
    by_cases hx : x = cat <;> simp only [hx, if_true, if_false]
    · exact lastIdxAux_isSome_of_acc xs (i + 1) i
    · have : cat ∈ xs := by
        rcases List.mem_cons.1 h with he | hm
        · cases hx he.symm
        · exact hm
      exact lastIdxAux_isSome_of_mem xs (i + 1) acc this

theorem get_category_order_not_mem {order : List String} {cat : String}
    (h : cat ∉ order) : get_category_order order cat = 999 := by
  unfold get_category_order lastIdx
  rw [lastIdxAux_not_mem order 0 none h]
  rfl

theorem get_category_order_lt_of_mem {order : List String} {cat : String}
    (h : cat ∈ order) : get_category_order order cat < order.length := by
  unfold get_category_order lastIdx
  have hsome := lastIdxAux_isSome_of_mem order 0 none h
  rcases ho : lastIdxAux cat 0 order none with _ | j
  · rw [ho] at hsome; cases hsome
  · have := lastIdxAux_lt order 0 none (fun j hj => by cases hj) j ho
    simpa using this

theorem nodup_subset_length {order : List String}
    (hnd : order.Nodup) (hsub : ∀ c ∈ order, c ∈ get_available_categories) :
    order.length ≤ 16 := by
  have h1 : order.toFinset.card = order.length :=
    List.toFinset_card_of_nodup hnd
  have h2 : order.toFinset ⊆ get_available_categories.toFinset := by
    intro c hc
    rw [List.mem_toFinset] at hc ⊢
    exact hsub c hc
  have h3 := Finset.card_le_card h2
  have h4 : get_available_categories.toFinset.card ≤ 16 := by
    have := List.toFinset_card_le (α := String) get_available_categories
    simpa using this
  omega

theorem prodCmp_first_gt {α β : Type} {c₁ : α → α → Ordering}
    {c₂ : β → β → Ordering} {x y : α × β}
    (h : c₁ x.1 y.1 = Ordering.gt) : prodCmp c₁ c₂ x y = Ordering.gt := by
  unfold prodCmp
  rw [h]

theorem cmpL_gt_iff {α : Type} [LinearOrder α] (a b : α) :
    cmpL a b = Ordering.gt ↔ b < a := by
  rw [cmpL_laws.gt_iff, cmpL_lt_iff]

/-- C10 (amended): (1) validation accepts every NON-EMPTY custom order all
of whose names are known categories (strict subsets included) and rejects
an order only when it is empty or mentions an unknown name; (2) a category
absent from the configured order gets rank 999; (3) for a duplicate-free
order of known names, every listed category ranks strictly below 999, so
(4) a token whose category is unlisted compares strictly greater than any
token whose category is listed. -/
theorem C10_custom_order (order : List String) :
    (order ≠ [] → (∀ c ∈ order, c ∈ get_available_categories) →
        validate_custom_order order = Except.ok ()) ∧
      (validate_custom_order order = Except.ok () →
        order ≠ [] ∧ ∀ c ∈ order, c ∈ get_available_categories) ∧
      (∀ cat, cat ∉ order → get_category_order order cat = 999) ∧
      (order.Nodup → (∀ c ∈ order, c ∈ get_available_categories) →
        ∀ cat listed, cat ∉ order → listed ∈ order →
          get_category_order order listed < get_category_order order cat) ∧
      (order.Nodup → (∀ c ∈ order, c ∈ get_available_categories) →
        ∀ ta tb : List Char,
          get_class_category (split_variants ta).1 ∉ order →
          get_class_category (split_variants tb).1 ∈ order →
          compare_classes order ta tb = Ordering.gt) := by
  refine ⟨?_, ?_, ?_, ?_, ?_⟩
  · intro hne hsub
    unfold validate_custom_order
    rw [if_neg hne]
    have : order.find? (fun c => !(get_available_categories.contains c)) =
        none := by
      rw [List.find?_eq_none]
      intro x hx
      have hm : get_available_categories.contains x = true :=
        List.elem_iff.2 (hsub x hx)
      simp [hm, hsub x hx]
    rw [this]
  · intro hok
    unfold validate_custom_order at hok
    by_cases hne : order = []
    · rw [if_pos hne] at hok
      cases hok
    · rw [if_neg hne] at hok
      refine ⟨hne, ?_⟩
      rcases hfind : order.find?
          (fun c => !(get_available_categories.contains c)) with _ | c
      · intro c hc
        have := List.find?_eq_none.1 hfind c hc
        simp only [Bool.not_eq_true'] at this
        rw [Bool.not_eq_false] at this
        exact List.elem_iff.1 this
      · rw [hfind] at hok
        cases hok
  · intro cat h
    exact get_category_order_not_mem h
  · intro hnd hsub cat listed hcat hlisted
    rw [get_category_order_not_mem hcat]
    have h1 := get_category_order_lt_of_mem hlisted
    have h2 := nodup_subset_length hnd hsub
    omega
  · intro hnd hsub ta tb hcat hlisted
    rw [compare_classes_eq_keyCmp]
    apply prodCmp_first_gt
    show cmpL (get_category_order order (get_class_category (split_variants ta).1))
      (get_category_order order (get_class_category (split_variants tb).1)) =
      Ordering.gt
    rw [cmpL_gt_iff]
    rw [get_category_order_not_mem hcat]
    have h1 := get_category_order_lt_of_mem hlisted
    have h2 := nodup_subset_length hnd hsub
    omega

/-- C10 counterexample to the claim as stated: the empty custom order has
all of its (zero) names among the known categories, yet validation rejects
it — so validation does not accept EVERY all-known-name order. -/
theorem C10_counterexample :
    (∀ c ∈ ([] : List String), c ∈ get_available_categories) ∧
      validate_custom_order [] ≠ Except.ok () := by
  constructor
  · intro c hc; cases hc
  · intro h
    exact Except.noConfusion h

theorem C10_witness :
    validate_custom_order ["spacing", "flexbox-grid"] = Except.ok () ∧
      get_category_order ["spacing", "flexbox-grid"] "layout" = 999 ∧
      get_category_order ["spacing", "flexbox-grid"] "spacing" <
        get_category_order ["spacing", "flexbox-grid"] "layout" ∧
      compare_classes ["spacing", "flexbox-grid"] ("block").data ("p-4").data =
        Ordering.gt := by
  refine ⟨(C10_custom_order _).1 (by decide) (by decide),
    (C10_custom_order _).2.2.1 "layout" (by decide),
    (C10_custom_order _).2.2.2.1 (by decide) (by decide) "layout" "spacing"
      (by decide) (by decide),
    (C10_custom_order _).2.2.2.2 (by decide) (by decide) ("block").data
      ("p-4").data (by decide) (by decide)⟩

/-! ## Content heuristic (`src/parser/visitor.rs`) -/

/-- The variant modifiers recognized by `matches_tailwind_pattern`. -/
def VARIANT_PREFIX_LIST : List String :=
  ["sm", "md", "lg", "xl", "2xl", "dark", "hover", "focus", "active",
   "first", "last", "odd", "even"]

/-- The `common_prefixes` array of `matches_tailwind_pattern`, transcribed
verbatim (duplicates included). -/
def COMMON_PREFIX_LIST : List String :=
  ["block", "inline", "flex", "grid", "table", "hidden", "relative",
   "absolute", "fixed", "sticky", "static", "inset-", "top-", "right-",
   "bottom-", "left-", "z-", "float-", "clear-", "object-", "overflow-",
   "overscroll-", "position-", "visible", "invisible", "collapse",
   "@container", "@apply", "@screen", "@layer",
   "items-", "justify-", "gap-", "grid-", "col-", "row-", "flex-", "order-",
   "justify-self-", "justify-items-", "content-", "items-", "self-",
   "p-", "px-", "py-", "pt-", "pr-", "pb-", "pl-", "m-", "mx-", "my-",
   "mt-", "mr-", "mb-", "ml-", "space-", "-space-",
   "w-", "h-", "min-w-", "min-h-", "max-w-", "max-h-", "size-",
   "text-", "font-", "leading-", "tracking-", "line-", "list-",
   "placeholder-", "decoration-", "underline", "overline", "line-through",
   "no-underline",
   "bg-", "from-", "via-", "to-", "gradient-",
   "border", "border-", "rounded", "rounded-", "divide-", "outline-",
   "shadow", "shadow-", "opacity-", "ring-", "ring-", "drop-shadow-",
   "blur-", "brightness-", "contrast-", "grayscale", "invert", "saturate-",
   "sepia", "hue-rotate-", "filter", "backdrop-",
   "transform", "rotate-", "scale-", "translate-", "skew-", "origin-",
   "transition", "duration-", "ease-", "delay-", "animate-",
   "cursor-", "select-", "pointer-events-", "resize", "scroll-", "snap-",
   "touch-", "will-change-"]

/-- Core token check of `matches_tailwind_pattern`: prefix match for
entries ending in a dash, exact match otherwise. -/
def coreTokenMatches (token : List Char) : Bool :=
  COMMON_PREFIX_LIST.any (fun p =>
    if p.data.getLast? = some '-' then p.data.isPrefixOf token
    else decide (p.data = token))

/-- Fuel-indexed body of `matches_tailwind_pattern`.  Every recursive call
shortens the token by at least one character, so fuel `length + 1` is never
exhausted; the fuel makes the recursion structural so that concrete
evaluation reduces in the kernel. -/
def matchesTwAux : Nat → List Char → Bool
  | 0, token => coreTokenMatches token
  | fuel + 1, token =>
    match token.findIdx? (fun c => c = ':') with
    | some i =>
      if (VARIANT_PREFIX_LIST.map String.data).contains (token.take i) then
        matchesTwAux fuel (token.drop (i + 1))
      else if token.headD ' ' = '-' ∧ 1 < token.length then
        matchesTwAux fuel (token.drop 1)
      else if token.getLastD ' ' = '!' ∧ 1 < token.length then
        matchesTwAux fuel token.dropLast
      else coreTokenMatches token
    | none =>
      if token.headD ' ' = '-' ∧ 1 < token.length then
        matchesTwAux fuel (token.drop 1)
      else if token.getLastD ' ' = '!' ∧ 1 < token.length then
        matchesTwAux fuel token.dropLast
      else coreTokenMatches token

/-- Models `ClassExtractor::matches_tailwind_pattern`: iteratively strip a
recognized variant prefix up to the first colon, a leading dash, or a
trailing bang, then check the core token against the prefix table. -/
def matches_tailwind_pattern (token : List Char) : Bool :=
  matchesTwAux (token.length + 1) token

/-- Models `ClassExtractor::is_excluded_string`. -/
def is_excluded_string (content : List Char) : Bool :=
  startsWithStr "calc(" content || startsWithStr "clamp(" content ||
  startsWithStr "min(" content || startsWithStr "max(" content ||
  startsWithStr "var(" content || startsWithStr "env(" content ||
  decide (content = ("use client").data) ||
  decide (content = ("use strict").data) ||
  decide (content = ("use server").data) ||
  startsWithStr "http://" content || startsWithStr "https://" content ||
  startsWithStr "./" content || startsWithStr "../" content ||
  startsWithStr "/" content ||
  containsSubstr content ("://").data ||
  content.contains '@' || content.contains '='

/-- Models `ClassExtractor::contains_tailwind_like_tokens`.  The Rust `f32`
test `tw as f32 / len as f32 >= 0.5` is modelled exactly by
`len ≤ 2 * tw`: both counts are far below 2^24, so they are exact in f32
and the rounded quotient lies on the same side of 0.5 as the rational
value. -/
def contains_tailwind_like_tokens (content : List Char) : Bool :=
  let tokens := words content
  if 2 ≤ tokens.length then
    let tw := (tokens.filter matches_tailwind_pattern).length
    if tokens.length ≤ 4 then decide (2 ≤ tw)
    else decide (tokens.length ≤ 2 * tw)
  else tokens.any matches_tailwind_pattern

/-- Models `ClassExtractor::looks_like_tailwind_classes`. -/
def looks_like_tailwind_classes (content : List Char) : Bool :=
  let trimmed := trimWs content
  if is_excluded_string trimmed then false
  else if trimmed.contains ' ' then contains_tailwind_like_tokens trimmed
  else matches_tailwind_pattern trimmed

/-! ## Match records (`src/parser/mod.rs`) -/

/-- Byte span `(start, end)`, half open. -/
abbrev Span := Nat × Nat

/-- Models `QuoteStyle`. -/
inductive QuoteStyle where
  | single
  | double
  | backtick
deriving DecidableEq, Repr

/-- Models `PatternType` (`Array` and `BinaryExpression` renamed to avoid
clashes). -/
inductive PatternType where
  | jsxAttribute
  | functionCall (function_name : String) (arg_index : Nat)
  | templateLiteral (tag : Option String)
  | arrayElement (array_index : Nat)
  | arrayPat (elements : List String)
  | binaryExpr (left_content : String) (right_content : String)
deriving DecidableEq, Repr

/-- Models `ClassMatch` (`end` renamed to `stop`). -/
structure ClassMatch where
  start : Nat
  stop : Nat
  original : String
  quote_style : QuoteStyle
  pattern_type : PatternType
deriving DecidableEq, Repr

/-! ## AST model

Modelled from the spec: the external `oxc` front end (spec section 4.1) is
a black box producing an AST; `Node` models the node shapes the visitor of
`visitor.rs` dispatches on, with spans into the parsed source text.
Constructs the visitor does not inspect (statements, conditionals,
parenthesized expressions, JSX children and so on) are represented by the
generic `otherE` node, whose children are visited in order exactly as the
generic `oxc` walk does. -/

mutual
inductive Node where
  | strLit (span : Span)
  | identE (span : Span) (name : String)
  | callE (span : Span) (callee : Node) (args : List Node)
  | templateE (span : Span) (quasis : List (Span × Option String))
      (exprs : List Node)
  | taggedE (span : Span) (tag : Node) (qspan : Span)
      (qquasis : List (Span × Option String)) (qexprs : List Node)
  | arrayE (span : Span) (elems : List ArrElem)
  | objectE (span : Span) (props : List ObjProp)
  | binaryE (span : Span) (isAdd : Bool) (left : Node) (right : Node)
  | jsxElem (span : Span) (attrs : List JSXAttr) (children : List Node)
  | otherE (span : Span) (children : List Node)
deriving Repr

inductive ArrElem where
  | elemExpr (e : Node)
  | elemHole
deriving Repr

inductive ObjProp where
  | mk (key : Option String) (value : Node)
deriving Repr

inductive JSXAttr where
  | mk (name : Option String) (value : Option AttrVal)
deriving Repr

inductive AttrVal where
  | strVal (span : Span)
  | exprVal (e : Node)
deriving Repr
end

/-- Span stored at the head of every node. -/
def nodeSpan : Node → Span
  | .strLit sp => sp
  | .identE sp _ => sp
  | .callE sp _ _ => sp
  | .templateE sp _ _ => sp
  | .taggedE sp _ _ _ _ => sp
  | .arrayE sp _ => sp
  | .objectE sp _ => sp
  | .binaryE sp _ _ _ => sp
  | .jsxElem sp _ _ => sp
  | .otherE sp _ => sp

/-! ## Extractor (`src/parser/visitor.rs`) -/

/-- Extractor context: the source text walked and the supported combinator
function names. -/
structure ExtCtx where
  src : List Char
  funcs : List String

/-- Extractor state: emitted matches and the processed-span set (modelled
as a list with membership). -/
structure ExtState where
  matchList : List ClassMatch
  processed : List Span

/-- `DEFAULT_SUPPORTED_FUNCTIONS` of `visitor.rs`. -/
def DEFAULT_SUPPORTED_FUNCTIONS : List String :=
  ["cn", "twMerge", "clsx", "classNames", "classList", "cva"]

/-- Models `ClassExtractor::extract_string_value`: the span slice, or empty
when the span does not fit the source. -/
def extract_string_value (src : List Char) (sp : Span) : List Char :=
  if sp.1 ≥ src.length ∨ sp.2 > src.length ∨ sp.1 ≥ sp.2 then []
  else (src.drop sp.1).take (sp.2 - sp.1)

/-- Models `ClassExtractor::detect_quote_style`. -/
def detect_quote_style (src : List Char) (sp : Span) : QuoteStyle :=
  match (extract_string_value src sp).head? with
  | some c =>
    if c = '\'' then QuoteStyle.single
    else if c = '"' then QuoteStyle.double
    else if c = '`' then QuoteStyle.backtick
    else QuoteStyle.double
  | none => QuoteStyle.double

/-- Models `ClassExtractor::extract_class_string_content`: strips one
matching pair of surrounding quotes. -/
def extract_class_string_content (src : List Char) (sp : Span) : List Char :=
  let t := extract_string_value src sp
  if 2 ≤ t.length ∧
      ((t.headD ' ' = '"' ∧ t.getLastD ' ' = '"') ∨
       (t.headD ' ' = '\'' ∧ t.getLastD ' ' = '\'') ∨
       (t.headD ' ' = '`' ∧ t.getLastD ' ' = '`')) then
    (t.drop 1).dropLast
  else t

/-- Models `ClassExtractor::process_string_literal`. -/
def process_string_literal (ctx : ExtCtx) (st : ExtState) (sp : Span)
    (pt : PatternType) : ExtState :=
  if sp ∈ st.processed then st
  else
    let quote := detect_quote_style ctx.src sp
    let content := extract_class_string_content ctx.src sp
    if trimWs content ≠ [] ∧ looks_like_tailwind_classes content then
      { matchList := st.matchList ++ [⟨sp.1, sp.2, ⟨content⟩, quote, pt⟩],
        processed := sp :: st.processed }
    else st

/-- Models `is_static_template_literal` plus `extract_template_content`:
the cooked text of the sole quasi when the template has no interpolation. -/
def extract_template_content (quasis : List (Span × Option String))
    (noExprs : Bool) : Option String :=
  if noExprs ∧ quasis.length = 1 then
    match quasis.head? with
    | some q => q.2
    | none => none
  else none

/-- The emission step shared by `visit_template_literal` and
`visit_tagged_template_expression`. -/
def template_emit (ctx : ExtCtx) (st : ExtState) (sp : Span)
    (quasis : List (Span × Option String)) (noExprs : Bool)
    (tag : Option String) : ExtState :=
  match extract_template_content quasis noExprs with
  | some content =>
    if trimWs content.data ≠ [] ∧ looks_like_tailwind_classes content.data then
      if sp ∈ st.processed then st
      else
        { matchList := st.matchList ++
            [⟨sp.1, sp.2, content, QuoteStyle.backtick,
              PatternType.templateLiteral tag⟩],
          processed := sp :: st.processed }
    else st
  | none => st

/-- The inline emission of `visit_object_property`: the span is recorded as
processed BEFORE the heuristic runs, and there is no nonempty-content
check. -/
def objPropEmit (ctx : ExtCtx) (st : ExtState) (sp : Span) : ExtState :=
  if sp ∈ st.processed then st
  else
    let content := extract_class_string_content ctx.src sp
    if looks_like_tailwind_classes content then
      { matchList := st.matchList ++
          [⟨sp.1, sp.2, ⟨content⟩, detect_quote_style ctx.src sp,
            PatternType.jsxAttribute⟩],
        processed := sp :: st.processed }
    else { st with processed := sp :: st.processed }

/-- String-literal span of an array element, when it is one. -/
def arrElemStr : ArrElem → Option Span
  | .elemExpr (.strLit sp) => some sp
  | _ => none

/-- Every element is a string literal (the all-strings path of
`visit_array_expression`). -/
def arrAllStrings (elems : List ArrElem) : Bool :=
  elems.all (fun e => (arrElemStr e).isSome)

/-- The all-strings emission of `visit_array_expression`.  The Rust `f32`
ratio `tailwind / total >= 0.5` is modelled exactly by
`total ≤ 2 * tailwind` as in `contains_tailwind_like_tokens`. -/
def array_emit (ctx : ExtCtx) (st : ExtState) (sp : Span)
    (elems : List ArrElem) : ExtState :=
  let strSpans := elems.filterMap arrElemStr
  let string_elements := strSpans.map (fun s => extract_class_string_content ctx.src s)
  let total := string_elements.length
  let twCount := (string_elements.filter
    (fun c => looks_like_tailwind_classes c)).length
  let quote := match strSpans.head? with
    | some s => detect_quote_style ctx.src s
    | none => QuoteStyle.double
  if 0 < total ∧ (total ≤ 2 * twCount ∨ total = 1) then
    if sp ∈ st.processed then st
    else
      { matchList := st.matchList ++
          [⟨sp.1, sp.2, ⟨joinSep [' '] string_elements⟩, quote,
            PatternType.arrayPat (string_elements.map
              (fun e => (⟨e⟩ : String)))⟩],
        processed := sp :: st.processed }
  else st

/-- The string-plus-string handling of `visit_binary_expression`.  When
both operands pass the heuristic the whole expression is matched (children
are not revisited); otherwise the two literals are visited generically. -/
def binary_emit (ctx : ExtCtx) (st : ExtState) (sp : Span) (ls rs : Span) :
    ExtState :=
  let lc := extract_class_string_content ctx.src ls
  let rc := extract_class_string_content ctx.src rs
  if looks_like_tailwind_classes lc ∧ looks_like_tailwind_classes rc then
    if sp ∈ st.processed then st
    else
      let combined := trimWs lc ++ ' ' :: trimWs rc
      if looks_like_tailwind_classes combined then
        { matchList := st.matchList ++
            [⟨sp.1, sp.2, ⟨combined⟩, detect_quote_style ctx.src ls,
              PatternType.binaryExpr ⟨lc⟩ ⟨rc⟩⟩],
          processed := sp :: st.processed }
      else { st with processed := sp :: st.processed }
  else
    process_string_literal ctx
      (process_string_literal ctx st ls (PatternType.functionCall "general" 0))
      rs (PatternType.functionCall "general" 0)

mutual
/-- Models the `Visit` dispatch of `ClassExtractor` (one function per
overridden `visit_*`, with the generic walk inlined for the node shapes it
traverses). -/
def visitNode (ctx : ExtCtx) (st : ExtState) : Node → ExtState
  | .strLit sp =>
    process_string_literal ctx st sp (PatternType.functionCall "general" 0)
  | .identE _ _ => st
  | .callE _ callee args =>
    match callee with
    | .identE _ name =>
      if name ∈ ctx.funcs then processArgs ctx st name 0 args
      else st
    | c => visitList ctx (visitNode ctx st c) args
  | .templateE sp quasis exprs =>
    visitList ctx (template_emit ctx st sp quasis exprs.isEmpty none) exprs
  | .taggedE _ tag qspan qquasis qexprs =>
    let tagName := match tag with
      | .identE _ n => some n
      | _ => none
    let st1 := template_emit ctx st qspan qquasis qexprs.isEmpty tagName
    let st2 := visitNode ctx st1 tag
    let st3 := template_emit ctx st2 qspan qquasis qexprs.isEmpty none
    visitList ctx st3 qexprs
  | .arrayE sp elems =>
    if arrAllStrings elems then array_emit ctx st sp elems
    else visitElems ctx st elems
  | .objectE _ props => visitProps ctx st props
  | .binaryE sp isAdd l r =>
    match isAdd, l, r with
    | true, .strLit ls, .strLit rs => binary_emit ctx st sp ls rs
    | _, l', r' => visitNode ctx (visitNode ctx st l') r'
  | .jsxElem _ attrs children =>
    visitList ctx (visitAttrs ctx st attrs) children
  | .otherE _ children => visitList ctx st children

def visitList (ctx : ExtCtx) (st : ExtState) : List Node → ExtState
  | [] => st
  | n :: rest => visitList ctx (visitNode ctx st n) rest

/-- Models `ClassExtractor::process_function_arguments`. -/
def processArgs (ctx : ExtCtx) (st : ExtState) (name : String) (i : Nat) :
    List Node → ExtState
  | [] => st
  | a :: rest =>
    let st1 := match a with
      | .strLit sp =>
        process_string_literal ctx st sp (PatternType.functionCall name i)
      | other => visitNode ctx st other
    processArgs ctx st1 name (i + 1) rest

/-- The mixed-array fallback walk of `visit_array_expression`. -/
def visitElems (ctx : ExtCtx) (st : ExtState) : List ArrElem → ExtState
  | [] => st
  | .elemExpr e :: rest => visitElems ctx (visitNode ctx st e) rest
  | .elemHole :: rest => visitElems ctx st rest

/-- Models `visit_object_property` over a property list. -/
def visitProps (ctx : ExtCtx) (st : ExtState) : List ObjProp → ExtState
  | [] => st
  | .mk key value :: rest =>
    let st1 := match key, value with
      | some n, .strLit sp =>
        if n = "className" ∨ n = "class" then objPropEmit ctx st sp else st
      | _, _ => st
    visitProps ctx (visitNode ctx st1 value) rest

/-- Models `visit_jsx_attribute` over an attribute list: the special
class-attribute emission, then the generic walk of the attribute value. -/
def visitAttrs (ctx : ExtCtx) (st : ExtState) : List JSXAttr → ExtState
  | [] => st
  | .mk name value :: rest =>
    let st1 := match name, value with
      | some n, some (.strVal sp) =>
        if n = "className" ∨ n = "class" then
          process_string_literal ctx st sp PatternType.jsxAttribute
        else st
      | _, _ => st
    let st2 := match value with
      | some (.strVal sp) =>
        process_string_literal ctx st1 sp (PatternType.functionCall "general" 0)
      | some (.exprVal e) => visitNode ctx st1 e
      | none => st1
    visitAttrs ctx st2 rest
end

/-- Extraction entry point: walk the program node with an empty state, as
`FileParser::parse_source_with_path` does via `visit_program`. -/
def extract_matches (src : String) (funcs : List String) (prog : Node) :
    List ClassMatch :=
  (visitNode ⟨src.data, funcs⟩ ⟨[], []⟩ prog).matchList

/-! ## JSX wrapping and span adjustment (`src/parser/mod.rs`) -/

/-- Models `str::ends_with` with a string pattern. -/
def endsWithStr (p : String) (l : List Char) : Bool := p.data.isSuffixOf l

/-- Models `str::replace(char, &str)`. -/
def replaceAllChar (l : List Char) (c : Char) (rep : List Char) : List Char :=
  l.flatMap (fun x => if x = c then rep else [x])

/-- Models `FileParser::wrap_jsx_if_needed`: a bare JSX fragment (starts
with `<`, mentions none of `function`, `const`, `export`) is auto-closed
and wrapped in a synthetic component; returns the parsed text and the
offset of the fragment inside it. -/
def wrap_jsx_if_needed (source : List Char) : List Char × Nat :=
  let trimmed := trimWs source
  if trimmed.headD ' ' = '<' ∧
      containsSubstr trimmed ("function").data = false ∧
      containsSubstr trimmed ("const").data = false ∧
      containsSubstr trimmed ("export").data = false then
    let closed :=
      if trimmed.contains '>' = false then trimmed ++ (" />").data
      else if trimmed.getLastD ' ' = '>' ∧
          endsWithStr "/>" trimmed = false ∧
          containsSubstr trimmed ("</").data = false then
        replaceAllChar trimmed '>' (" />").data
      else trimmed
    let wrapped := ("const Component = () => (").data ++ closed ++ (");").data
    (wrapped, (findSubstr wrapped closed).getD 0)
  else (source, 0)

/-- Models the span adjustment of `FileParser::parse_source_with_path`:
when the source was wrapped, spans at or past the wrapper offset are
shifted back. -/
def adjust_spans (offset : Nat) (ms : List ClassMatch) : List ClassMatch :=
  if 0 < offset then
    ms.map (fun m =>
      if offset ≤ m.start ∧ offset ≤ m.stop then
        { m with start := m.start - offset, stop := m.stop - offset }
      else m)
  else ms

/-! ## Rewrite engine (`src/processor/mod.rs`) -/

/-- Quote character of a quote style. -/
def quoteChar : QuoteStyle → Char
  | QuoteStyle.single => '\''
  | QuoteStyle.double => '"'
  | QuoteStyle.backtick => '`'

/-- Models Rust `String::replace_range`: defined when the range is valid,
`none` when `replace_range` would abort (the char-boundary condition has no
counterpart at the char level). -/
def replaceRange (l : List Char) (a b : Nat) (rep : List Char) :
    Option (List Char) :=
  if a ≤ b ∧ b ≤ l.length then some (l.take a ++ rep ++ l.drop b) else none

/-- One iteration of the rewrite loop of `FileProcessor::process_content`:
sort the match content, skip when unchanged, otherwise splice according to
the pattern type.  The returned flag is `changes_made` for this match; the
`none` result models an aborted `replace_range`. -/
def applyMatch (order : List String) (buf : List Char) (m : ClassMatch) :
    Option (List Char × Bool) :=
  let sorted := sort_classes order m.original
  if sorted = m.original then some (buf, false)
  else
    let qc := quoteChar m.quote_style
    let replacement := qc :: sorted.data ++ [qc]
    match m.pattern_type with
    | PatternType.jsxAttribute =>
      let search := qc :: m.original.data ++ [qc]
      match findSubstr buf search with
      | some p =>
        (replaceRange buf p (p + search.length) replacement).map
          (fun b => (b, true))
      | none => some (buf, true)
    | PatternType.functionCall _ _ =>
      if m.start < buf.length ∧ m.stop ≤ buf.length then
        (replaceRange buf m.start m.stop replacement).map (fun b => (b, true))
      else some (buf, true)
    | PatternType.templateLiteral _ =>
      let trep := '`' :: sorted.data ++ ['`']
      if m.start < buf.length ∧ m.stop ≤ buf.length then
        (replaceRange buf m.start m.stop trep).map (fun b => (b, true))
      else some (buf, true)
    | PatternType.arrayElement _ =>
      if m.start < buf.length ∧ m.stop ≤ buf.length then
        (replaceRange buf m.start m.stop replacement).map (fun b => (b, true))
      else some (buf, true)
    | PatternType.arrayPat _ =>
      let pieces := words sorted.data
      let quoted := pieces.map (fun w => qc :: w ++ [qc])
      let arep := '[' :: joinSep (", ").data quoted ++ [']']
      if m.start < buf.length ∧ m.stop ≤ buf.length then
        (replaceRange buf m.start m.stop arep).map (fun b => (b, true))
      else some (buf, true)
    | PatternType.binaryExpr left _ =>
      let sorted_words := words sorted.data
      let left_word_count := (words left.data).length
      let pair :=
        if left_word_count ≤ sorted_words.length then
          (sorted_words.take left_word_count, sorted_words.drop left_word_count)
        else
          (sorted_words.take (sorted_words.length / 2),
           sorted_words.drop (sorted_words.length / 2))
      let brep := qc :: joinSep [' '] pair.1 ++ [qc] ++ (" + ").data ++
        qc :: joinSep [' '] pair.2 ++ [qc]
      if m.start < buf.length ∧ m.stop ≤ buf.length then
        (replaceRange buf m.start m.stop brep).map (fun b => (b, true))
      else some (buf, true)

/-- The rewrite loop over the descending-sorted match list. -/
def rewriteGo (order : List String) (buf : List Char) (changed : Bool) :
    List ClassMatch → Option (List Char × Bool)
  | [] => some (buf, changed)
  | m :: rest =>
    match applyMatch order buf m with
    | some (b, c) => rewriteGo order b (changed || c) rest
    | none => none

/-- Descending sort by start offset, as `sorted_matches.sort_by` with
`b.start.cmp(&a.start)` (a stable sort; extractor outputs have pairwise
distinct starts, so tie order is irrelevant). -/
def sortMatchesDesc (ms : List ClassMatch) : List ClassMatch :=
  List.insertionSort (fun a b => b.start ≤ a.start) ms

/-- The rewrite portion of `FileProcessor::process_content`: matches are
processed from the highest start offset down; returns the rewritten text
and the `changes_made` flag, or `none` when a splice would abort. -/
def rewrite_matches (order : List String) (content : String)
    (ms : List ClassMatch) : Option (String × Bool) :=
  (rewriteGo order content.data false (sortMatchesDesc ms)).map
    (fun p => (⟨p.1⟩, p.2))

/-- Models `FileProcessor::process_content` under the default
`ProcessOptions` (`dry_run = false`, `write = false`,
`check_formatted = false`), for which the function returns the rewritten
buffer: parse (modelled by the supplied AST for the wrapped text), adjust
spans, rewrite.  An empty match list returns the input unchanged. -/
def process_content_model (order : List String) (funcs : List String)
    (content : String) (progOfWrapped : Node) : Option String :=
  let wrapped := wrap_jsx_if_needed content.data
  let ms := adjust_spans wrapped.2
    (extract_matches ⟨wrapped.1⟩ funcs progOfWrapped)
  if ms = [] then some content
  else (rewrite_matches order content ms).map (fun p => p.1)

/-- Models `FileParser::parse_source_with_path` given the black-box parse
of the wrapped text: wrap, extract, adjust spans. -/
def parse_source_model (src : String) (funcs : List String)
    (progOfWrapped : Node) : List ClassMatch :=
  adjust_spans (wrap_jsx_if_needed src.data).2
    (extract_matches ⟨(wrap_jsx_if_needed src.data).1⟩ funcs progOfWrapped)

/-! ## Claim C1: end-to-end button scenario -/

/-- The input of the end-to-end scenario. -/
def c1_input : String :=
  "<button className=\"p-4 bg-blue-500 text-white flex items-center\">"

/-- Modelled from the spec: the AST the external front end returns for the
wrapped input
`const Component = () => (<button className=\"...\" />);` —
a JSX element carrying one `className` attribute whose string literal
(quotes included) spans bytes 43 to 89 of the wrapped text. -/
def c1_ast : Node :=
  Node.otherE (0, 94)
    [Node.jsxElem (25, 92)
      [JSXAttr.mk (some "className") (some (AttrVal.strVal (43, 89)))]
      []]

/-- C1: processing the button input with the default configuration
succeeds and returns exactly the expected canonical output. -/
theorem C1_end_to_end :
    process_content_model CATEGORY_ORDER DEFAULT_SUPPORTED_FUNCTIONS c1_input
      c1_ast =
      some "<button className=\"flex items-center p-4 text-white bg-blue-500\">" := by
  decide

/-! ## Claim C7: exclusion heuristic -/

/-- First C7 statement: a prose string containing `self-harm`. -/
def c7_prose : String :=
  "const test = 'Sensitivity cannot be adjusted for self-harm category';"

/-- Modelled from the spec: its AST — a statement wrapper around the string
literal at bytes 13 to 68. -/
def c7_prose_ast : Node := Node.otherE (0, 69) [Node.strLit (13, 68)]

/-- Second C7 statement: a genuine two-token class list. -/
def c7_classes : String := "const test = 'self-center justify-self-start';"

/-- Modelled from the spec: its AST — a statement wrapper around the string
literal at bytes 13 to 45. -/
def c7_classes_ast : Node := Node.otherE (0, 46) [Node.strLit (13, 45)]

/-- C7: the prose statement produces zero matches; the class-list
statement produces exactly one. -/
theorem C7_exclusion_heuristic :
    parse_source_model c7_prose DEFAULT_SUPPORTED_FUNCTIONS c7_prose_ast = [] ∧
      (parse_source_model c7_classes DEFAULT_SUPPORTED_FUNCTIONS
        c7_classes_ast).length = 1 := by
  constructor
  · decide
  · decide

/-! ## Claim C9: rewrite safety -/

/-- C9 counterexample to the claim as stated: a match with `start > stop`
(both within the buffer) passes the in-bounds guard and drives
`replace_range` into an invalid range, which aborts — the rewrite is not
total over arbitrary ill-formed match lists. -/
theorem C9_counterexample :
    rewrite_matches CATEGORY_ORDER "abcdef"
      [⟨2, 1, "p-4 flex", QuoteStyle.double, PatternType.functionCall "f" 0⟩] =
      none := by
  decide

/-! ## Claim C2: frame effect counterexample -/

/-- A parsed source in which the same quoted class list occurs once inside
an unsupported call (not matched) and once as a JSX `className` value
(matched). -/
def c2_src : String :=
  "foo(\"p-4 flex m-2\"); const x = <div className=\"p-4 flex m-2\"/>;"

/-- Modelled from the spec: its AST — the `foo(...)` call (an unsupported
callee, so its argument is not visited) followed by the JSX element whose
`className` literal spans bytes 46 to 60. -/
def c2_ast : Node :=
  Node.otherE (0, 63)
    [Node.callE (0, 19) (Node.identE (0, 3) "foo") [Node.strLit (4, 18)],
     Node.jsxElem (31, 62)
       [JSXAttr.mk (some "className") (some (AttrVal.strVal (46, 60)))]
       []]

/-- C2 counterexample to the claim as stated: extraction yields exactly one
match, spanning bytes 46 to 60, yet rewriting changes the first 46 bytes
(the JSX branch replaces the FIRST occurrence of the quoted original,
which here sits inside `foo(...)`), so bytes outside every match span are
altered. -/
theorem C2_counterexample :
    ((extract_matches c2_src DEFAULT_SUPPORTED_FUNCTIONS c2_ast).map
        (fun m => (m.start, m.stop)) = [(46, 60)]) ∧
      ((rewrite_matches CATEGORY_ORDER c2_src
          (extract_matches c2_src DEFAULT_SUPPORTED_FUNCTIONS c2_ast)).map
        (fun p => p.1.data.take 46)) ≠ some (c2_src.data.take 46) := by
  constructor
  · decide
  · decide

/-! ## Claim C8: span-invariant counterexample -/

/-- A bare JSX fragment in which a `>` occurs inside an attribute string:
the auto-closing pre-pass of `wrap_jsx_if_needed` rewrites every `>` to
` />`, lengthening the parsed text, so the adjusted spans overrun the
caller's source. -/
def c8_src : String := "<a t=\">\" className=\"p-4 bg-red-500\">"

/-- Modelled from the spec: the AST of the wrapped, auto-closed text
`const Component = () => (<a t=\" />\" className=\"p-4 bg-red-500\" />);`
— one JSX element with the `t` attribute literal at bytes 30 to 35 and the
`className` literal at bytes 46 to 62. -/
def c8_ast : Node :=
  Node.otherE (0, 67)
    [Node.jsxElem (25, 65)
      [JSXAttr.mk (some "t") (some (AttrVal.strVal (30, 35))),
       JSXAttr.mk (some "className") (some (AttrVal.strVal (46, 62)))]
      []]

/-- C8 counterexample to the claim as stated: for this successfully parsed
input the extracted match has `stop = 37`, strictly beyond the caller's
36-byte source, so `end <= len(source)` fails relative to the original
text. -/
theorem C8_counterexample :
    ∃ m ∈ parse_source_model c8_src DEFAULT_SUPPORTED_FUNCTIONS c8_ast,
      c8_src.data.length < m.stop := by
  decide

/-! ## Claims C3 and C9: rewrite-loop lemmas -/

theorem findSubstr_spec {l pat : List Char} {p : Nat}
    (h : findSubstr l pat = some p) : p + pat.length ≤ l.length := by
  unfold findSubstr at h
  have hpre := List.find?_some h
  rw [List.isPrefixOf_iff_prefix] at hpre
  have hlen := hpre.length_le
  rw [List.length_drop] at hlen
  have hp : p ∈ List.range (l.length + 1) := List.mem_of_find?_eq_some h
  rw [List.mem_range] at hp
  omega

theorem replaceRange_isSome {l rep : List Char} {a b : Nat} (h1 : a ≤ b)
    (h2 : b ≤ l.length) : (replaceRange l a b rep).isSome := by
  unfold replaceRange
  rw [if_pos ⟨h1, h2⟩]
  rfl

theorem replaceRange_eq {l rep out : List Char} {a b : Nat}
    (h : replaceRange l a b rep = some out) :
    a ≤ b ∧ b ≤ l.length ∧ out = l.take a ++ rep ++ l.drop b := by
  unfold replaceRange at h
  by_cases hc : a ≤ b ∧ b ≤ l.length
  · rw [if_pos hc] at h
    injection h with h
    exact ⟨hc.1, hc.2, h.symm⟩
  · rw [if_neg hc] at h
    cases h

/-- C3: for every content and match list in which every match's class list
is already canonical, the rewrite loop reports `changed = false` and
returns the original text byte-for-byte. -/
theorem C3_noop_when_canonical (order : List String) (content : String)
    (ms : List ClassMatch)
    (h : ∀ m ∈ ms, sort_classes order m.original = m.original) :
    rewrite_matches order content ms = some (content, false) := by
  unfold rewrite_matches
  have hall : ∀ m ∈ sortMatchesDesc ms,
      sort_classes order m.original = m.original := by
    intro m hm
    exact h m ((List.perm_insertionSort _ ms).mem_iff.1 hm)
  have key : ∀ (l : List ClassMatch) (buf : List Char),
      (∀ m ∈ l, sort_classes order m.original = m.original) →
      rewriteGo order buf false l = some (buf, false) := by
    intro l
    induction l with
    | nil => intro buf _; rfl
    | cons m rest ih =>
      intro buf hl
      have hm := hl m (by simp)
      have happ : applyMatch order buf m = some (buf, false) := by
        unfold applyMatch
        rw [if_pos hm]
      show (match applyMatch order buf m with
        | some (b, c) => rewriteGo order b (false || c) rest
        | none => none) = some (buf, false)
      rw [happ]
      exact ih buf (fun x hx => hl x (by simp [hx]))
  rw [key (sortMatchesDesc ms) content.data hall]
  rfl

theorem C3_witness :
    rewrite_matches CATEGORY_ORDER "<div className=\"flex m-2 p-4\">"
      [⟨15, 29, "flex m-2 p-4", QuoteStyle.double, PatternType.jsxAttribute⟩] =
      some ("<div className=\"flex m-2 p-4\">", false) :=
  C3_noop_when_canonical CATEGORY_ORDER _ _ (by decide)

theorem applyMatch_isSome (order : List String) (buf : List Char)
    (m : ClassMatch) (h : m.start ≤ m.stop) :
    (applyMatch order buf m).isSome := by
  unfold applyMatch
  by_cases he : sort_classes order m.original = m.original
  · rw [if_pos he]
    rfl
  · rw [if_neg he]
    split
    · dsimp only
      split
      · rename_i p hf
        rw [Option.isSome_map']
        have hb := findSubstr_spec hf
        exact replaceRange_isSome (Nat.le_add_right _ _) (by omega)
      · rfl
    all_goals
      dsimp only
      split
      · rw [Option.isSome_map']
        rename_i hg
        exact replaceRange_isSome h hg.2
      · rfl

theorem frame_of_map_replaceRange {buf rep out : List Char} {a b : Nat}
    {cc c : Bool}
    (h : Option.map (fun x => (x, cc)) (replaceRange buf a b rep) =
      some (out, c)) :
    ∃ a' b' rep', a' ≤ b' ∧ b' ≤ buf.length ∧
      out = buf.take a' ++ rep' ++ buf.drop b' := by
  rcases Option.map_eq_some'.1 h with ⟨x, hx, hxe⟩
  obtain ⟨h1, h2, h3⟩ := replaceRange_eq hx
  injection hxe with h4 h5
  subst h4
  exact ⟨a, b, rep, h1, h2, h3⟩

theorem frame_of_some_eq {buf out : List Char} {c1 c : Bool}
    (h : some (buf, c1) = some (out, c)) :
    ∃ a b rep, a ≤ b ∧ b ≤ buf.length ∧
      out = buf.take a ++ rep ++ buf.drop b := by
  injection h with h1
  injection h1 with h2 h3
  subst h2
  exact ⟨0, 0, [], le_refl 0, Nat.zero_le _, by simp⟩

theorem applyMatch_frame (order : List String) (buf : List Char)
    (m : ClassMatch) (out : List Char) (c : Bool)
    (happ : applyMatch order buf m = some (out, c)) :
    ∃ a b rep, a ≤ b ∧ b ≤ buf.length ∧
      out = buf.take a ++ rep ++ buf.drop b := by
  unfold applyMatch at happ
  by_cases he : sort_classes order m.original = m.original
  · rw [if_pos he] at happ
    exact frame_of_some_eq happ
  · rw [if_neg he] at happ
    split at happ
    all_goals
      dsimp only at happ
      split at happ
      all_goals
        first
        | exact frame_of_map_replaceRange happ
        | exact frame_of_some_eq happ

theorem applyMatch_skip (order : List String) (buf : List Char)
    (m : ClassMatch) (hpt : m.pattern_type ≠ PatternType.jsxAttribute)
    (hg : ¬(m.start < buf.length ∧ m.stop ≤ buf.length)) :
    ∃ c, applyMatch order buf m = some (buf, c) := by
  unfold applyMatch
  by_cases he : sort_classes order m.original = m.original
  · rw [if_pos he]
    exact ⟨false, rfl⟩
  · rw [if_neg he]
    split
    · rename_i heq
      exact absurd heq hpt
    all_goals
      dsimp only
      rw [if_neg hg]
      exact ⟨true, rfl⟩

theorem rewriteGo_total (order : List String) :
    ∀ (l : List ClassMatch) (buf : List Char) (ch : Bool),
      (∀ m ∈ l, m.start ≤ m.stop) →
      ∃ out c, rewriteGo order buf ch l = some (out, c)
  | [], buf, ch => fun _ => ⟨buf, ch, rfl⟩
  | m :: rest, buf, ch => by
    intro hl
    have hsome := applyMatch_isSome order buf m (hl m (by simp))
    rcases ho : applyMatch order buf m with _ | ⟨b, c⟩
    · rw [ho] at hsome
      cases hsome
    · rcases rewriteGo_total order rest b (ch || c)
        (fun x hx => hl x (by simp [hx])) with ⟨out, c', hout⟩
      refine ⟨out, c', ?_⟩
      unfold rewriteGo
      rw [ho]
      exact hout

/-- C9 (amended): on any match list whose spans satisfy `start ≤ stop` the
rewrite is total (never panics); a non-JSX match whose span does not fit the
current buffer is skipped, returning the buffer unchanged; and every
successful single-match step only splices one contiguous region, leaving
all bytes outside `[a, b)` untouched. -/
theorem C9_rewrite_safety (order : List String) (content : String)
    (ms : List ClassMatch) (h : ∀ m ∈ ms, m.start ≤ m.stop) :
    (∃ out changed, rewrite_matches order content ms = some (out, changed)) ∧
    (∀ (buf : List Char) (m : ClassMatch),
       m.pattern_type ≠ PatternType.jsxAttribute →
       ¬(m.start < buf.length ∧ m.stop ≤ buf.length) →
       ∃ c, applyMatch order buf m = some (buf, c)) ∧
    (∀ (buf : List Char) (m : ClassMatch) (out : List Char) (c : Bool),
       applyMatch order buf m = some (out, c) →
       ∃ a b rep, a ≤ b ∧ b ≤ buf.length ∧
         out = buf.take a ++ rep ++ buf.drop b) := by
  refine ⟨?_, fun buf m => applyMatch_skip order buf m,
    fun buf m out c => applyMatch_frame order buf m out c⟩
  have hs : ∀ m ∈ sortMatchesDesc ms, m.start ≤ m.stop :=
    fun m hm => h m ((List.perm_insertionSort _ ms).mem_iff.1 hm)
  rcases rewriteGo_total order (sortMatchesDesc ms) content.data false hs
    with ⟨out, c, hout⟩
  refine ⟨⟨out⟩, c, ?_⟩
  unfold rewrite_matches
  rw [hout]
  rfl

theorem C9_witness :
    ∃ out changed,
      rewrite_matches CATEGORY_ORDER "cn(\"p-4 flex\")"
        [⟨4, 12, "p-4 flex", QuoteStyle.double,
          PatternType.functionCall "cn" 0⟩] = some (out, changed) :=
  (C9_rewrite_safety CATEGORY_ORDER _ _ (by decide)).1

/-! ## C2 support: splice characterization of the non-JSX rewrite arms -/

/-- Modelled from the spec: the reference multi-splice.  Each pair holds a
match and the text put in its place; spans are spliced from the highest
start downwards, every byte outside the spans copied verbatim. -/
def spliceSegs (orig : List Char) : List (ClassMatch × List Char) → List Char
  | [] => orig
  | (m, rep) :: rest =>
    spliceSegs (orig.take m.start) rest ++ rep ++ orig.drop m.stop

theorem splice_self (l : List Char) (s e : Nat) (h : s ≤ e) :
    l.take s ++ (l.take e).drop s ++ l.drop e = l := by
  have h1 : l.take s = (l.take e).take s := by
    rw [List.take_take, Nat.min_eq_left h]
  rw [h1, List.take_append_drop, List.take_append_drop]

/-- A successful non-JSX `applyMatch` with a span inside the buffer is a
single splice at that span. -/
theorem applyMatch_local (order : List String) (buf : List Char)
    (m : ClassMatch) (hpt : m.pattern_type ≠ PatternType.jsxAttribute)
    (h1 : m.start < m.stop) (h2 : m.stop ≤ buf.length) :
    ∃ rep c, applyMatch order buf m =
      some (buf.take m.start ++ rep ++ buf.drop m.stop, c) := by
  have hg : m.start < buf.length ∧ m.stop ≤ buf.length :=
    ⟨Nat.lt_of_lt_of_le h1 h2, h2⟩
  unfold applyMatch
  by_cases he : sort_classes order m.original = m.original
  · rw [if_pos he]
    exact ⟨(buf.take m.stop).drop m.start, false,
      by rw [splice_self buf m.start m.stop (Nat.le_of_lt h1)]⟩
  · rw [if_neg he]
    split
    · exact absurd (by assumption) hpt
    all_goals
      dsimp only
      rw [if_pos hg, replaceRange, if_pos ⟨Nat.le_of_lt h1, h2⟩]
      exact ⟨_, true, rfl⟩

theorem map_replaceRange_append (P Q rep : List Char) (s e : Nat)
    (h1 : s < e) (h2 : e ≤ P.length) :
    (replaceRange (P ++ Q) s e rep).map (fun b => (b, true)) =
      ((replaceRange P s e rep).map (fun b => (b, true))).map
        (fun p => (p.1 ++ Q, p.2)) := by
  rw [replaceRange, replaceRange,
    if_pos ⟨Nat.le_of_lt h1, Nat.le_trans h2 (by simp)⟩,
    if_pos ⟨Nat.le_of_lt h1, h2⟩]
  simp only [Option.map_some']
  rw [List.take_append_of_le_length (Nat.le_trans (Nat.le_of_lt h1) h2),
    List.drop_append_of_le_length h2]
  simp [List.append_assoc]

/-- A non-JSX `applyMatch` whose span lies inside the prefix `P` acts only
on `P` and copies the suffix `Q` through. -/
theorem applyMatch_append (order : List String) (P Q : List Char)
    (m : ClassMatch) (hpt : m.pattern_type ≠ PatternType.jsxAttribute)
    (h1 : m.start < m.stop) (h2 : m.stop ≤ P.length) :
    applyMatch order (P ++ Q) m =
      (applyMatch order P m).map (fun p => (p.1 ++ Q, p.2)) := by
  have hgP : m.start < P.length ∧ m.stop ≤ P.length :=
    ⟨Nat.lt_of_lt_of_le h1 h2, h2⟩
  have hgPQ : m.start < (P ++ Q).length ∧ m.stop ≤ (P ++ Q).length := by
    constructor
    · simp only [List.length_append]
      omega
    · simp only [List.length_append]
      omega
  unfold applyMatch
  by_cases he : sort_classes order m.original = m.original
  · rw [if_pos he, if_pos he]
    rfl
  · rw [if_neg he, if_neg he]
    split
    · exact absurd (by assumption) hpt
    all_goals
      dsimp only
      rw [if_pos hgPQ, if_pos hgP]
      exact map_replaceRange_append P Q _ m.start m.stop h1 h2

/-- The rewrite loop factors over an untouched suffix: when every span of a
descending disjoint non-JSX match list lies inside the prefix `P`, the
suffix `Q` is copied through unchanged. -/
theorem rewriteGo_append (order : List String) (Q : List Char) :
    ∀ (ms : List ClassMatch) (P : List Char) (ch : Bool),
      ms.Pairwise (fun a b => b.stop ≤ a.start) →
      (∀ m ∈ ms, m.pattern_type ≠ PatternType.jsxAttribute ∧
        m.start < m.stop ∧ m.stop ≤ P.length) →
      rewriteGo order (P ++ Q) ch ms =
        (rewriteGo order P ch ms).map (fun p => (p.1 ++ Q, p.2))
  | [], P, ch => fun _ _ => rfl
  | m :: rest, P, ch => by
    intro hpw hv
    obtain ⟨hpt, h1, h2⟩ := hv m (by simp)
    obtain ⟨rep, c0, happ⟩ := applyMatch_local order P m hpt h1 h2
    have happQ : applyMatch order (P ++ Q) m =
        some ((P.take m.start ++ rep ++ P.drop m.stop) ++ Q, c0) := by
      rw [applyMatch_append order P Q m hpt h1 h2, happ]
      rfl
    have hlen : m.start ≤ (P.take m.start ++ rep ++ P.drop m.stop).length := by
      simp only [List.length_append, List.length_take, List.length_drop]
      omega
    have hd : ∀ x ∈ rest, x.stop ≤ m.start := (List.pairwise_cons.1 hpw).1
    have ih := rewriteGo_append order Q rest
      (P.take m.start ++ rep ++ P.drop m.stop) (ch || c0)
      (List.pairwise_cons.1 hpw).2
      (fun x hx => ⟨(hv x (List.mem_cons_of_mem _ hx)).1,
        (hv x (List.mem_cons_of_mem _ hx)).2.1,
        Nat.le_trans (hd x hx) hlen⟩)
    unfold rewriteGo
    rw [happQ, happ]
    exact ih

/-- The rewrite loop on a descending disjoint non-JSX match list succeeds
and produces exactly the multi-splice of the buffer. -/
theorem rewriteGo_frame (order : List String) :
    ∀ (ms : List ClassMatch) (orig : List Char) (ch : Bool),
      ms.Pairwise (fun a b => b.stop ≤ a.start) →
      (∀ m ∈ ms, m.pattern_type ≠ PatternType.jsxAttribute ∧
        m.start < m.stop ∧ m.stop ≤ orig.length) →
      ∃ pairs c, pairs.map Prod.fst = ms ∧
        rewriteGo order orig ch ms = some (spliceSegs orig pairs, c)
  | [], orig, ch => fun _ _ => ⟨[], ch, rfl, rfl⟩
  | m :: rest, orig, ch => by
    intro hpw hv
    obtain ⟨hpt, h1, h2⟩ := hv m (by simp)
    obtain ⟨rep, c0, happ⟩ := applyMatch_local order orig m hpt h1 h2
    have hd : ∀ x ∈ rest, x.stop ≤ m.start := (List.pairwise_cons.1 hpw).1
    have hlen : (orig.take m.start).length = m.start := by
      rw [List.length_take]
      omega
    obtain ⟨pairs, c, hmap, heq⟩ := rewriteGo_frame order rest
      (orig.take m.start) (ch || c0) (List.pairwise_cons.1 hpw).2
      (fun x hx => ⟨(hv x (List.mem_cons_of_mem _ hx)).1,
        (hv x (List.mem_cons_of_mem _ hx)).2.1,
        by rw [hlen]; exact hd x hx⟩)
    refine ⟨(m, rep) :: pairs, c, by simp [hmap], ?_⟩
    unfold rewriteGo
    rw [happ]
    show rewriteGo order (orig.take m.start ++ rep ++ orig.drop m.stop)
      (ch || c0) rest = some (spliceSegs orig ((m, rep) :: pairs), c)
    have hfac := rewriteGo_append order (rep ++ orig.drop m.stop) rest
      (orig.take m.start) (ch || c0) (List.pairwise_cons.1 hpw).2
      (fun x hx => ⟨(hv x (List.mem_cons_of_mem _ hx)).1,
        (hv x (List.mem_cons_of_mem _ hx)).2.1,
        by rw [hlen]; exact hd x hx⟩)
    rw [show orig.take m.start ++ rep ++ orig.drop m.stop =
        orig.take m.start ++ (rep ++ orig.drop m.stop) from
      by rw [List.append_assoc]]
    rw [hfac, heq]
    simp only [Option.map_some', spliceSegs, List.append_assoc]

/-- C2 (amended): for every match list in which no match uses the
JSXAttribute rewrite arm and whose spans are valid and pairwise disjoint,
listed in descending start order, the rewrite succeeds and its output is
the multi-splice of the input: a replacement is put at each recorded span
and every byte outside the spans is copied verbatim.  (For JSXAttribute
matches the rewrite instead replaces the first occurrence of the quoted
original anywhere in the buffer, which can alter bytes outside every
recorded span — C2_counterexample.) -/
theorem C2_frame_nonjsx (order : List String) (content : String)
    (ms : List ClassMatch)
    (hpw : ms.Pairwise (fun a b => b.stop ≤ a.start))
    (hv : ∀ m ∈ ms, m.pattern_type ≠ PatternType.jsxAttribute ∧
      m.start < m.stop ∧ m.stop ≤ content.length) :
    ∃ pairs c, pairs.map Prod.fst = ms ∧
      rewrite_matches order content ms =
        some (⟨spliceSegs content.data pairs⟩, c) := by
  have hsorted : List.Sorted (fun a b : ClassMatch => b.start ≤ a.start) ms := by
    refine List.Pairwise.imp_of_mem ?_ hpw
    intro a b ha hb h
    exact Nat.le_trans (Nat.le_of_lt (hv b hb).2.1) h
  obtain ⟨pairs, c, hmap, heq⟩ := rewriteGo_frame order ms content.data false
    hpw (fun m hm => hv m hm)
  refine ⟨pairs, c, hmap, ?_⟩
  rw [rewrite_matches, sortMatchesDesc, hsorted.insertionSort_eq, heq]
  rfl

theorem C2_witness :
    ∃ pairs c,
      pairs.map Prod.fst =
        [⟨5, 17, "p-4 flex m-2", QuoteStyle.double,
          PatternType.functionCall "foo" 0⟩] ∧
      rewrite_matches CATEGORY_ORDER "foo(\"p-4 flex m-2\")"
        [⟨5, 17, "p-4 flex m-2", QuoteStyle.double,
          PatternType.functionCall "foo" 0⟩] =
        some (⟨spliceSegs ("foo(\"p-4 flex m-2\")").data pairs⟩, c) :=
  C2_frame_nonjsx CATEGORY_ORDER "foo(\"p-4 flex m-2\")"
    [⟨5, 17, "p-4 flex m-2", QuoteStyle.double,
      PatternType.functionCall "foo" 0⟩] (by decide) (by decide)

/-! ## C8 support: span well-formedness and the extractor-walk invariant -/

/-- Half-open span containment. -/
def spanSub (a U : Span) : Prop := U.1 ≤ a.1 ∧ a.2 ≤ U.2

/-- Half-open span disjointness. -/
def spanDisj (a b : Span) : Prop := a.2 ≤ b.1 ∨ b.2 ≤ a.1

/-- Span of a match record. -/
def mSpan (m : ClassMatch) : Span := (m.start, m.stop)

/-- Boolean span validity for a source of length `len`. -/
def spanOkB (len : Nat) (sp : Span) : Bool :=
  decide (sp.1 < sp.2) && decide (sp.2 ≤ len)

/-- Boolean span containment. -/
def spanSubB (a U : Span) : Bool := decide (U.1 ≤ a.1) && decide (a.2 ≤ U.2)

/-- Boolean span disjointness. -/
def spanDisjB (a b : Span) : Bool := decide (a.2 ≤ b.1) || decide (b.2 ≤ a.1)

/-- Pairwise disjointness of a span list. -/
def spansDisjointB : List Span → Bool
  | [] => true
  | sp :: rest => rest.all (fun x => spanDisjB sp x) && spansDisjointB rest

/-- Span visited for an array element, when there is one. -/
def elemSpan : ArrElem → Option Span
  | .elemExpr e => some (nodeSpan e)
  | .elemHole => none

/-- Span of an object property value. -/
def propSpan : ObjProp → Span
  | .mk _ v => nodeSpan v

/-- Span visited for a JSX attribute, when there is one. -/
def attrSpan : JSXAttr → Option Span
  | .mk _ (some (.strVal sp)) => some sp
  | .mk _ (some (.exprVal e)) => some (nodeSpan e)
  | .mk _ none => none

mutual
/-- Modelled from the spec: the span discipline the oxc front end
guarantees for the AST it hands to the visitor — every node span is valid
for the parsed text, child spans are contained in their parent's span, and
sibling spans are pairwise disjoint. -/
def wfNode (len : Nat) : Node → Bool
  | .strLit sp => spanOkB len sp
  | .identE sp _ => spanOkB len sp
  | .callE sp callee args =>
    spanOkB len sp && wfNode len callee && wfNodes len args &&
    spanSubB (nodeSpan callee) sp &&
    args.all (fun a => spanSubB (nodeSpan a) sp) &&
    spansDisjointB (nodeSpan callee :: args.map nodeSpan)
  | .templateE sp _ exprs =>
    spanOkB len sp && wfNodes len exprs &&
    exprs.all (fun a => spanSubB (nodeSpan a) sp) &&
    spansDisjointB (exprs.map nodeSpan)
  | .taggedE sp tag qspan _ qexprs =>
    spanOkB len sp && spanOkB len qspan && wfNode len tag &&
    wfNodes len qexprs &&
    spanSubB (nodeSpan tag) sp && spanSubB qspan sp &&
    qexprs.all (fun a => spanSubB (nodeSpan a) qspan) &&
    spanDisjB (nodeSpan tag) qspan &&
    spansDisjointB (qexprs.map nodeSpan)
  | .arrayE sp elems =>
    spanOkB len sp && wfElems len elems &&
    elems.all (fun e => match elemSpan e with
      | some s => spanSubB s sp
      | none => true) &&
    spansDisjointB (elems.filterMap elemSpan)
  | .objectE sp props =>
    spanOkB len sp && wfProps len props &&
    props.all (fun p => spanSubB (propSpan p) sp) &&
    spansDisjointB (props.map propSpan)
  | .binaryE sp _ l r =>
    spanOkB len sp && wfNode len l && wfNode len r &&
    spanSubB (nodeSpan l) sp && spanSubB (nodeSpan r) sp &&
    spanDisjB (nodeSpan l) (nodeSpan r)
  | .jsxElem sp attrs children =>
    spanOkB len sp && wfAttrs len attrs && wfNodes len children &&
    attrs.all (fun a => match attrSpan a with
      | some s => spanSubB s sp
      | none => true) &&
    children.all (fun c => spanSubB (nodeSpan c) sp) &&
    spansDisjointB (attrs.filterMap attrSpan ++ children.map nodeSpan)
  | .otherE sp children =>
    spanOkB len sp && wfNodes len children &&
    children.all (fun c => spanSubB (nodeSpan c) sp) &&
    spansDisjointB (children.map nodeSpan)

def wfNodes (len : Nat) : List Node → Bool
  | [] => true
  | n :: rest => wfNode len n && wfNodes len rest

def wfElems (len : Nat) : List ArrElem → Bool
  | [] => true
  | .elemExpr e :: rest => wfNode len e && wfElems len rest
  | .elemHole :: rest => wfElems len rest

def wfProps (len : Nat) : List ObjProp → Bool
  | [] => true
  | .mk _ v :: rest => wfNode len v && wfProps len rest

def wfAttrs (len : Nat) : List JSXAttr → Bool
  | [] => true
  | .mk _ (some (.exprVal e)) :: rest => wfNode len e && wfAttrs len rest
  | _ :: rest => wfAttrs len rest
end

/-- The extractor-walk invariant: the processed set only grows, and the
walk appends matches that are valid for the source, lie inside one of the
spans `Us`, and are pairwise disjoint. -/
def EmitsIn (len : Nat) (Us : List Span) (st st' : ExtState) : Prop :=
  (∀ x ∈ st.processed, x ∈ st'.processed) ∧
  ∃ new, st'.matchList = st.matchList ++ new ∧
    (∀ m ∈ new, m.start < m.stop ∧ m.stop ≤ len ∧
      ∃ U ∈ Us, spanSub (mSpan m) U) ∧
    new.Pairwise (fun a b => spanDisj (mSpan a) (mSpan b))

theorem emitsIn_self (len : Nat) (Us : List Span) (st : ExtState) :
    EmitsIn len Us st st :=
  ⟨fun _ h => h, [], by simp, by simp, List.Pairwise.nil⟩

theorem spanSub_refl (a : Span) : spanSub a a := ⟨Nat.le_refl _, Nat.le_refl _⟩

theorem spanSub_trans {a U V : Span} (h1 : spanSub a U) (h2 : spanSub U V) :
    spanSub a V :=
  ⟨Nat.le_trans h2.1 h1.1, Nat.le_trans h1.2 h2.2⟩

theorem spanDisj_symm {a b : Span} (h : spanDisj a b) : spanDisj b a :=
  h.symm

theorem spanDisj_of_sub {a b U V : Span} (ha : spanSub a U) (hb : spanSub b V)
    (h : spanDisj U V) : spanDisj a b := by
  rcases h with h | h
  · exact Or.inl (Nat.le_trans ha.2 (Nat.le_trans h hb.1))
  · exact Or.inr (Nat.le_trans hb.2 (Nat.le_trans h ha.1))

theorem emitsIn_mono {len : Nat} {Us Vs : List Span} {st st' : ExtState}
    (h : EmitsIn len Us st st')
    (hsub : ∀ U ∈ Us, ∃ V ∈ Vs, spanSub U V) : EmitsIn len Vs st st' := by
  obtain ⟨hp, new, hml, hmem, hpw⟩ := h
  refine ⟨hp, new, hml, ?_, hpw⟩
  intro m hm
  obtain ⟨h1, h2, U, hU, hsubm⟩ := hmem m hm
  obtain ⟨V, hV, hUV⟩ := hsub U hU
  exact ⟨h1, h2, V, hV, spanSub_trans hsubm hUV⟩

theorem emitsIn_comp {len : Nat} {Us Vs : List Span} {st st1 st2 : ExtState}
    (h1 : EmitsIn len Us st st1) (h2 : EmitsIn len Vs st1 st2)
    (hd : ∀ U ∈ Us, ∀ V ∈ Vs, spanDisj U V) :
    EmitsIn len (Us ++ Vs) st st2 := by
  obtain ⟨hp1, new1, hml1, hmem1, hpw1⟩ := h1
  obtain ⟨hp2, new2, hml2, hmem2, hpw2⟩ := h2
  refine ⟨fun x hx => hp2 x (hp1 x hx), new1 ++ new2, ?_, ?_, ?_⟩
  · rw [hml2, hml1, List.append_assoc]
  · intro m hm
    rcases List.mem_append.1 hm with hm | hm
    · obtain ⟨a1, a2, U, hU, hs⟩ := hmem1 m hm
      exact ⟨a1, a2, U, List.mem_append.2 (Or.inl hU), hs⟩
    · obtain ⟨a1, a2, V, hV, hs⟩ := hmem2 m hm
      exact ⟨a1, a2, V, List.mem_append.2 (Or.inr hV), hs⟩
  · rw [List.pairwise_append]
    refine ⟨hpw1, hpw2, ?_⟩
    intro a ha b hb
    obtain ⟨_, _, U, hU, hsa⟩ := hmem1 a ha
    obtain ⟨_, _, V, hV, hsb⟩ := hmem2 b hb
    exact spanDisj_of_sub hsa hsb (hd U hU V hV)

theorem seq_cons_emitsIn {len : Nat} {sp : Span} {sps : List Span}
    {st st1 st2 : ExtState}
    (h1 : EmitsIn len [sp] st st1) (h2 : EmitsIn len sps st1 st2)
    (hd : ∀ V ∈ sps, spanDisj sp V) :
    EmitsIn len (sp :: sps) st st2 := by
  have hc := emitsIn_comp h1 h2 (by
    intro U hU V hV
    rw [List.mem_singleton] at hU
    subst hU
    exact hd V hV)
  exact hc

theorem emitsIn_single {len : Nat} {sp : Span} {st st' : ExtState}
    (hproc : ∀ x ∈ st.processed, x ∈ st'.processed)
    (hml : st'.matchList = st.matchList ∨
      ∃ m, st'.matchList = st.matchList ++ [m] ∧ mSpan m = sp ∧
        sp.1 < sp.2 ∧ sp.2 ≤ len) :
    EmitsIn len [sp] st st' := by
  rcases hml with h | ⟨m, hml, hsp, h1, h2⟩
  · exact ⟨hproc, [], by simp [h], by simp, List.Pairwise.nil⟩
  · subst hsp
    refine ⟨hproc, [m], hml, ?_, List.pairwise_singleton _ _⟩
    intro x hx
    rw [List.mem_singleton] at hx
    subst hx
    exact ⟨h1, h2, mSpan x, List.mem_singleton_self _, spanSub_refl _⟩

theorem spanOkB_ok {len : Nat} {sp : Span} (h : spanOkB len sp = true) :
    sp.1 < sp.2 ∧ sp.2 ≤ len := by
  simpa [spanOkB] using h

theorem spanSubB_sub {a U : Span} (h : spanSubB a U = true) : spanSub a U := by
  simpa [spanSubB, spanSub] using h

theorem spanDisjB_disj {a b : Span} (h : spanDisjB a b = true) :
    spanDisj a b := by
  simpa [spanDisjB, spanDisj] using h

theorem spansDisjointB_head {sp : Span} {rest : List Span}
    (h : spansDisjointB (sp :: rest) = true) :
    (∀ x ∈ rest, spanDisj sp x) ∧ spansDisjointB rest = true := by
  rw [spansDisjointB, Bool.and_eq_true] at h
  exact ⟨fun x hx => spanDisjB_disj (List.all_eq_true.1 h.1 x hx), h.2⟩

theorem spansDisjointB_pairwise : ∀ {l : List Span},
    spansDisjointB l = true → l.Pairwise spanDisj
  | [], _ => List.Pairwise.nil
  | sp :: rest, h => by
    obtain ⟨h1, h2⟩ := spansDisjointB_head h
    exact List.Pairwise.cons h1 (spansDisjointB_pairwise h2)

theorem extract_string_value_ne {src : List Char} {sp : Span}
    (h : extract_string_value src sp ≠ []) :
    sp.1 < sp.2 ∧ sp.2 ≤ src.length := by
  rw [extract_string_value] at h
  by_cases hc : sp.1 ≥ src.length ∨ sp.2 > src.length ∨ sp.1 ≥ sp.2
  · rw [if_pos hc] at h
    exact absurd rfl h
  · push_neg at hc
    exact ⟨hc.2.2, hc.2.1⟩

theorem ecc_ne {src : List Char} {sp : Span}
    (h : extract_class_string_content src sp ≠ []) :
    extract_string_value src sp ≠ [] := by
  intro he
  apply h
  rw [extract_class_string_content, he]
  simp

theorem psl_emitsIn (ctx : ExtCtx) (st : ExtState) (sp : Span)
    (pt : PatternType) :
    EmitsIn ctx.src.length [sp] st (process_string_literal ctx st sp pt) := by
  unfold process_string_literal
  by_cases hmem : sp ∈ st.processed
  · rw [if_pos hmem]
    exact emitsIn_self ..
  · rw [if_neg hmem]
    dsimp only
    split
    · rename_i hg
      have hne : extract_class_string_content ctx.src sp ≠ [] := by
        intro he
        exact hg.1 (by rw [he]; rfl)
      have hv := extract_string_value_ne (ecc_ne hne)
      exact emitsIn_single (fun x hx => List.mem_cons_of_mem _ hx)
        (Or.inr ⟨_, rfl, rfl, hv.1, hv.2⟩)
    · exact emitsIn_self ..

theorem psl_mem_eq (ctx : ExtCtx) (st : ExtState) (sp : Span)
    (pt : PatternType) (h : sp ∈ st.processed) :
    process_string_literal ctx st sp pt = st := by
  unfold process_string_literal
  rw [if_pos h]

theorem psl_after (ctx : ExtCtx) (st st2 : ExtState) (sp : Span)
    (pt1 pt2 : PatternType)
    (hsub : ∀ x ∈ (process_string_literal ctx st sp pt1).processed,
      x ∈ st2.processed) :
    process_string_literal ctx st2 sp pt2 = st2 := by
  unfold process_string_literal at hsub ⊢
  by_cases hm : sp ∈ st.processed
  · rw [if_pos hm] at hsub
    rw [if_pos (hsub sp hm)]
  · rw [if_neg hm] at hsub
    dsimp only at hsub
    split at hsub
    · rw [if_pos (hsub sp (List.mem_cons_self _ _))]
    · rename_i hg
      by_cases hm2 : sp ∈ st2.processed
      · rw [if_pos hm2]
      · rw [if_neg hm2]
        dsimp only
        rw [if_neg hg]

theorem template_emit_emitsIn (ctx : ExtCtx) (st : ExtState) (sp : Span)
    (q : List (Span × Option String)) (nx : Bool) (t : Option String)
    (hok : sp.1 < sp.2 ∧ sp.2 ≤ ctx.src.length) :
    EmitsIn ctx.src.length [sp] st (template_emit ctx st sp q nx t) := by
  unfold template_emit
  split
  · split
    · split
      · exact emitsIn_self ..
      · exact emitsIn_single (fun x hx => List.mem_cons_of_mem _ hx)
          (Or.inr ⟨_, rfl, rfl, hok.1, hok.2⟩)
    · exact emitsIn_self ..
  · exact emitsIn_self ..

theorem template_emit_after (ctx : ExtCtx) (st st2 : ExtState) (sp : Span)
    (q : List (Span × Option String)) (nx : Bool) (t1 t2 : Option String)
    (hsub : ∀ x ∈ (template_emit ctx st sp q nx t1).processed,
      x ∈ st2.processed) :
    template_emit ctx st2 sp q nx t2 = st2 := by
  rcases hc : extract_template_content q nx with _ | content
  · unfold template_emit
    rw [hc]
  · unfold template_emit at hsub
    rw [hc] at hsub
    unfold template_emit
    rw [hc]
    dsimp only at hsub ⊢
    by_cases hg : trimWs content.data ≠ [] ∧
        looks_like_tailwind_classes content.data = true
    · rw [if_pos hg] at hsub
      rw [if_pos hg]
      have hsp : sp ∈ st2.processed := by
        by_cases hm : sp ∈ st.processed
        · rw [if_pos hm] at hsub
          exact hsub sp hm
        · rw [if_neg hm] at hsub
          exact hsub sp (List.mem_cons_self _ _)
      rw [if_pos hsp]
    · rw [if_neg hg] at hsub
      rw [if_neg hg]

theorem template_emit_noExprs_false (ctx : ExtCtx) (st : ExtState) (sp : Span)
    (q : List (Span × Option String)) (t : Option String) :
    template_emit ctx st sp q false t = st := by
  unfold template_emit extract_template_content
  simp

theorem objPropEmit_emitsIn (ctx : ExtCtx) (st : ExtState) (sp : Span) :
    EmitsIn ctx.src.length [sp] st (objPropEmit ctx st sp) := by
  unfold objPropEmit
  by_cases hm : sp ∈ st.processed
  · rw [if_pos hm]
    exact emitsIn_self ..
  · rw [if_neg hm]
    dsimp only
    split
    · rename_i hg
      have hne : extract_class_string_content ctx.src sp ≠ [] := by
        intro he
        rw [he] at hg
        exact absurd hg (by decide)
      have hv := extract_string_value_ne (ecc_ne hne)
      exact emitsIn_single (fun x hx => List.mem_cons_of_mem _ hx)
        (Or.inr ⟨_, rfl, rfl, hv.1, hv.2⟩)
    · exact emitsIn_single (fun x hx => List.mem_cons_of_mem _ hx)
        (Or.inl rfl)

theorem objPropEmit_mem (ctx : ExtCtx) (st : ExtState) (sp : Span) :
    sp ∈ (objPropEmit ctx st sp).processed := by
  unfold objPropEmit
  by_cases hm : sp ∈ st.processed
  · rw [if_pos hm]
    exact hm
  · rw [if_neg hm]
    dsimp only
    split
    · exact List.mem_cons_self _ _
    · exact List.mem_cons_self _ _

theorem array_emit_emitsIn (ctx : ExtCtx) (st : ExtState) (sp : Span)
    (elems : List ArrElem) (hok : sp.1 < sp.2 ∧ sp.2 ≤ ctx.src.length) :
    EmitsIn ctx.src.length [sp] st (array_emit ctx st sp elems) := by
  unfold array_emit
  dsimp only
  split
  · split
    · exact emitsIn_self ..
    · exact emitsIn_single (fun x hx => List.mem_cons_of_mem _ hx)
        (Or.inr ⟨_, rfl, rfl, hok.1, hok.2⟩)
  · exact emitsIn_self ..

theorem binary_emit_emitsIn (ctx : ExtCtx) (st : ExtState) (sp ls rs : Span)
    (hok : sp.1 < sp.2 ∧ sp.2 ≤ ctx.src.length)
    (hls : spanSub ls sp) (hrs : spanSub rs sp) (hd : spanDisj ls rs) :
    EmitsIn ctx.src.length [sp] st (binary_emit ctx st sp ls rs) := by
  unfold binary_emit
  dsimp only
  split
  · split
    · exact emitsIn_self ..
    · split
      · exact emitsIn_single (fun x hx => List.mem_cons_of_mem _ hx)
          (Or.inr ⟨_, rfl, rfl, hok.1, hok.2⟩)
      · exact emitsIn_single (fun x hx => List.mem_cons_of_mem _ hx)
          (Or.inl rfl)
  · have h1 := psl_emitsIn ctx st ls (PatternType.functionCall "general" 0)
    have h2 := psl_emitsIn ctx
      (process_string_literal ctx st ls (PatternType.functionCall "general" 0))
      rs (PatternType.functionCall "general" 0)
    have hc := seq_cons_emitsIn h1 h2 (by
      intro V hV
      rw [List.mem_singleton] at hV
      subst hV
      exact hd)
    refine emitsIn_mono hc ?_
    intro U hU
    rcases List.mem_cons.1 hU with h | h
    · subst h
      exact ⟨sp, List.mem_singleton_self _, hls⟩
    · rw [List.mem_singleton] at h
      subst h
      exact ⟨sp, List.mem_singleton_self _, hrs⟩

theorem tagged_seq (ctx : ExtCtx) (st : ExtState) (sp qspan : Span)
    (qquasis : List (Span × Option String)) (tag : Node) (tn : Option String)
    (hokq : qspan.1 < qspan.2 ∧ qspan.2 ≤ ctx.src.length)
    (hsubt : spanSub (nodeSpan tag) sp) (hsubq : spanSub qspan sp)
    (hdtq : spanDisj (nodeSpan tag) qspan)
    (htag : EmitsIn ctx.src.length [nodeSpan tag]
      (template_emit ctx st qspan qquasis true tn)
      (visitNode ctx (template_emit ctx st qspan qquasis true tn) tag)) :
    EmitsIn ctx.src.length [sp] st
      (template_emit ctx
        (visitNode ctx (template_emit ctx st qspan qquasis true tn) tag)
        qspan qquasis true none) := by
  have h1 := template_emit_emitsIn ctx st qspan qquasis true tn hokq
  have h3 := template_emit_after ctx st
    (visitNode ctx (template_emit ctx st qspan qquasis true tn) tag)
    qspan qquasis true tn none (fun x hx => htag.1 x hx)
  rw [h3]
  refine emitsIn_mono (seq_cons_emitsIn h1 htag ?_) ?_
  · intro V hV
    rw [List.mem_singleton] at hV
    subst hV
    exact spanDisj_symm hdtq
  · intro U hU
    rcases List.mem_cons.1 hU with h | h
    · subst h
      exact ⟨sp, List.mem_singleton_self _, hsubq⟩
    · rw [List.mem_singleton] at h
      subst h
      exact ⟨sp, List.mem_singleton_self _, hsubt⟩

mutual
theorem visitNode_emits (ctx : ExtCtx) :
    ∀ (st : ExtState) (n : Node), wfNode ctx.src.length n = true →
      EmitsIn ctx.src.length [nodeSpan n] st (visitNode ctx st n)
  | st, .strLit sp, _ => psl_emitsIn ctx st sp _
  | st, .identE _ _, _ => emitsIn_self ..
  | st, .callE sp callee args, hwf => by
    simp only [wfNode, Bool.and_eq_true] at hwf
    obtain ⟨⟨⟨⟨⟨hok, hwfc⟩, hwfa⟩, hsubc⟩, hsuba⟩, hdisj⟩ := hwf
    have hsubaP : ∀ a ∈ args, spanSub (nodeSpan a) sp :=
      fun a ha => spanSubB_sub (List.all_eq_true.1 hsuba a ha)
    obtain ⟨hdh, hdt⟩ := spansDisjointB_head hdisj
    have hpwargs := spansDisjointB_pairwise hdt
    cases callee
    case identE csp cname =>
      show EmitsIn ctx.src.length [sp] st
        (if cname ∈ ctx.funcs then processArgs ctx st cname 0 args else st)
      by_cases hmem : cname ∈ ctx.funcs
      · rw [if_pos hmem]
        refine emitsIn_mono
          (processArgs_emits ctx st cname 0 args hwfa hpwargs) ?_
        intro U hU
        obtain ⟨a, ha, rfl⟩ := List.mem_map.1 hU
        exact ⟨sp, List.mem_singleton_self _, hsubaP a ha⟩
      · rw [if_neg hmem]
        exact emitsIn_self ..
    all_goals
      refine emitsIn_mono (seq_cons_emitsIn (visitNode_emits ctx st _ hwfc)
        (visitList_emits ctx _ args hwfa hpwargs) hdh) ?_
      intro U hU
      rcases List.mem_cons.1 hU with h | h
      · subst h
        exact ⟨sp, List.mem_singleton_self _, spanSubB_sub hsubc⟩
      · obtain ⟨a, ha, rfl⟩ := List.mem_map.1 h
        exact ⟨sp, List.mem_singleton_self _, hsubaP a ha⟩
  | st, .templateE sp quasis exprs, hwf => by
    simp only [wfNode, Bool.and_eq_true] at hwf
    obtain ⟨⟨⟨hok, hwfe⟩, hsube⟩, hdisj⟩ := hwf
    have hsubeP : ∀ a ∈ exprs, spanSub (nodeSpan a) sp :=
      fun a ha => spanSubB_sub (List.all_eq_true.1 hsube a ha)
    cases exprs with
    | nil =>
      exact template_emit_emitsIn ctx st sp quasis true none (spanOkB_ok hok)
    | cons e es =>
      show EmitsIn ctx.src.length [sp] st
        (visitList ctx (template_emit ctx st sp quasis false none) (e :: es))
      rw [template_emit_noExprs_false]
      refine emitsIn_mono (visitList_emits ctx st (e :: es) hwfe
        (spansDisjointB_pairwise hdisj)) ?_
      intro U hU
      obtain ⟨a, ha, rfl⟩ := List.mem_map.1 hU
      exact ⟨sp, List.mem_singleton_self _, hsubeP a ha⟩
  | st, .taggedE sp tag qspan qquasis qexprs, hwf => by
    simp only [wfNode, Bool.and_eq_true] at hwf
    obtain ⟨⟨⟨⟨⟨⟨⟨⟨hok, hokq⟩, hwft⟩, hwfq⟩, hsubt⟩, hsubq⟩, hsubqe⟩,
      hdtq⟩, hdisjq⟩ := hwf
    have hsubqeP : ∀ a ∈ qexprs, spanSub (nodeSpan a) qspan :=
      fun a ha => spanSubB_sub (List.all_eq_true.1 hsubqe a ha)
    cases qexprs with
    | nil =>
      exact tagged_seq ctx st sp qspan qquasis tag _ (spanOkB_ok hokq)
        (spanSubB_sub hsubt) (spanSubB_sub hsubq) (spanDisjB_disj hdtq)
        (visitNode_emits ctx _ tag hwft)
    | cons e es =>
      simp only [visitNode, List.isEmpty_cons]
      rw [template_emit_noExprs_false, template_emit_noExprs_false]
      refine emitsIn_mono (seq_cons_emitsIn (visitNode_emits ctx st tag hwft)
        (visitList_emits ctx (visitNode ctx st tag) (e :: es) hwfq
          (spansDisjointB_pairwise hdisjq)) ?_) ?_
      · intro V hV
        obtain ⟨a, ha, rfl⟩ := List.mem_map.1 hV
        exact spanDisj_of_sub (spanSub_refl _) (hsubqeP a ha)
          (spanDisjB_disj hdtq)
      · intro U hU
        rcases List.mem_cons.1 hU with h | h
        · subst h
          exact ⟨sp, List.mem_singleton_self _, spanSubB_sub hsubt⟩
        · obtain ⟨a, ha, rfl⟩ := List.mem_map.1 h
          exact ⟨sp, List.mem_singleton_self _,
            spanSub_trans (hsubqeP a ha) (spanSubB_sub hsubq)⟩
  | st, .arrayE sp elems, hwf => by
    simp only [wfNode, Bool.and_eq_true] at hwf
    obtain ⟨⟨⟨hok, hwfe⟩, hsube⟩, hdisj⟩ := hwf
    show EmitsIn ctx.src.length [sp] st
      (if arrAllStrings elems then array_emit ctx st sp elems
       else visitElems ctx st elems)
    split
    · exact array_emit_emitsIn ctx st sp elems (spanOkB_ok hok)
    · refine emitsIn_mono (visitElems_emits ctx st elems hwfe
        (spansDisjointB_pairwise hdisj)) ?_
      intro U hU
      obtain ⟨e, he, hsp⟩ := List.mem_filterMap.1 hU
      have hall := List.all_eq_true.1 hsube e he
      rw [hsp] at hall
      exact ⟨sp, List.mem_singleton_self _, spanSubB_sub hall⟩
  | st, .objectE sp props, hwf => by
    simp only [wfNode, Bool.and_eq_true] at hwf
    obtain ⟨⟨⟨hok, hwfp⟩, hsubp⟩, hdisj⟩ := hwf
    refine emitsIn_mono (visitProps_emits ctx st props hwfp
      (spansDisjointB_pairwise hdisj)) ?_
    intro U hU
    obtain ⟨p, hp, rfl⟩ := List.mem_map.1 hU
    exact ⟨sp, List.mem_singleton_self _,
      spanSubB_sub (List.all_eq_true.1 hsubp p hp)⟩
  | st, .binaryE sp isAdd l r, hwf => by
    simp only [wfNode, Bool.and_eq_true] at hwf
    obtain ⟨⟨⟨⟨⟨hok, hwfl⟩, hwfr⟩, hsubl⟩, hsubr⟩, hdlr⟩ := hwf
    have generic : EmitsIn ctx.src.length [sp] st
        (visitNode ctx (visitNode ctx st l) r) := by
      refine emitsIn_mono (seq_cons_emitsIn (visitNode_emits ctx st l hwfl)
        (visitNode_emits ctx (visitNode ctx st l) r hwfr) ?_) ?_
      · intro V hV
        rw [List.mem_singleton] at hV
        subst hV
        exact spanDisjB_disj hdlr
      · intro U hU
        rcases List.mem_cons.1 hU with h | h
        · subst h
          exact ⟨sp, List.mem_singleton_self _, spanSubB_sub hsubl⟩
        · rw [List.mem_singleton] at h
          subst h
          exact ⟨sp, List.mem_singleton_self _, spanSubB_sub hsubr⟩
    cases isAdd
    case false => exact generic
    case true =>
      cases l
      case strLit ls =>
        cases r
        case strLit rs =>
          exact binary_emit_emitsIn ctx st sp ls rs (spanOkB_ok hok)
            (spanSubB_sub hsubl) (spanSubB_sub hsubr) (spanDisjB_disj hdlr)
        all_goals exact generic
      all_goals exact generic
  | st, .jsxElem sp attrs children, hwf => by
    simp only [wfNode, Bool.and_eq_true] at hwf
    obtain ⟨⟨⟨⟨⟨hok, hwfat⟩, hwfch⟩, hsubat⟩, hsubch⟩, hdisj⟩ := hwf
    have hpw := spansDisjointB_pairwise hdisj
    rw [List.pairwise_append] at hpw
    refine emitsIn_mono (emitsIn_comp
      (visitAttrs_emits ctx st attrs hwfat hpw.1)
      (visitList_emits ctx (visitAttrs ctx st attrs) children hwfch hpw.2.1)
      hpw.2.2) ?_
    intro U hU
    rcases List.mem_append.1 hU with h | h
    · obtain ⟨a, ha, hsp⟩ := List.mem_filterMap.1 h
      have hall := List.all_eq_true.1 hsubat a ha
      rw [hsp] at hall
      exact ⟨sp, List.mem_singleton_self _, spanSubB_sub hall⟩
    · obtain ⟨c, hc, rfl⟩ := List.mem_map.1 h
      exact ⟨sp, List.mem_singleton_self _,
        spanSubB_sub (List.all_eq_true.1 hsubch c hc)⟩
  | st, .otherE sp children, hwf => by
    simp only [wfNode, Bool.and_eq_true] at hwf
    obtain ⟨⟨⟨hok, hwfch⟩, hsubch⟩, hdisj⟩ := hwf
    refine emitsIn_mono (visitList_emits ctx st children hwfch
      (spansDisjointB_pairwise hdisj)) ?_
    intro U hU
    obtain ⟨c, hc, rfl⟩ := List.mem_map.1 hU
    exact ⟨sp, List.mem_singleton_self _,
      spanSubB_sub (List.all_eq_true.1 hsubch c hc)⟩

theorem visitList_emits (ctx : ExtCtx) :
    ∀ (st : ExtState) (ns : List Node), wfNodes ctx.src.length ns = true →
      (ns.map nodeSpan).Pairwise spanDisj →
      EmitsIn ctx.src.length (ns.map nodeSpan) st (visitList ctx st ns)
  | st, [], _, _ => emitsIn_self ..
  | st, n :: rest, hwf, hpw => by
    simp only [wfNodes, Bool.and_eq_true] at hwf
    exact seq_cons_emitsIn (visitNode_emits ctx st n hwf.1)
      (visitList_emits ctx (visitNode ctx st n) rest hwf.2
        (List.pairwise_cons.1 hpw).2)
      (List.pairwise_cons.1 hpw).1

theorem processArgs_emits (ctx : ExtCtx) :
    ∀ (st : ExtState) (name : String) (i : Nat) (args : List Node),
      wfNodes ctx.src.length args = true →
      (args.map nodeSpan).Pairwise spanDisj →
      EmitsIn ctx.src.length (args.map nodeSpan) st
        (processArgs ctx st name i args)
  | st, _, _, [], _, _ => emitsIn_self ..
  | st, name, i, a :: rest, hwf, hpw => by
    simp only [wfNodes, Bool.and_eq_true] at hwf
    have htail := (List.pairwise_cons.1 hpw).2
    have hhead := (List.pairwise_cons.1 hpw).1
    cases a
    case strLit sp =>
      exact seq_cons_emitsIn (psl_emitsIn ctx st sp _)
        (processArgs_emits ctx _ name (i + 1) rest hwf.2 htail) hhead
    all_goals
      exact seq_cons_emitsIn (visitNode_emits ctx st _ hwf.1)
        (processArgs_emits ctx _ name (i + 1) rest hwf.2 htail) hhead

theorem visitElems_emits (ctx : ExtCtx) :
    ∀ (st : ExtState) (es : List ArrElem), wfElems ctx.src.length es = true →
      (es.filterMap elemSpan).Pairwise spanDisj →
      EmitsIn ctx.src.length (es.filterMap elemSpan) st (visitElems ctx st es)
  | st, [], _, _ => emitsIn_self ..
  | st, .elemHole :: rest, hwf, hpw =>
    visitElems_emits ctx st rest hwf hpw
  | st, .elemExpr e :: rest, hwf, hpw => by
    simp only [wfElems, Bool.and_eq_true] at hwf
    exact seq_cons_emitsIn (visitNode_emits ctx st e hwf.1)
      (visitElems_emits ctx (visitNode ctx st e) rest hwf.2
        (List.pairwise_cons.1 hpw).2)
      (List.pairwise_cons.1 hpw).1

theorem visitProps_emits (ctx : ExtCtx) :
    ∀ (st : ExtState) (ps : List ObjProp), wfProps ctx.src.length ps = true →
      (ps.map propSpan).Pairwise spanDisj →
      EmitsIn ctx.src.length (ps.map propSpan) st (visitProps ctx st ps)
  | st, [], _, _ => emitsIn_self ..
  | st, .mk key value :: rest, hwf, hpw => by
    simp only [wfProps, Bool.and_eq_true] at hwf
    have htail := (List.pairwise_cons.1 hpw).2
    have hhead := (List.pairwise_cons.1 hpw).1
    cases key with
    | none =>
      exact seq_cons_emitsIn (visitNode_emits ctx st _ hwf.1)
        (visitProps_emits ctx (visitNode ctx st value) rest hwf.2 htail) hhead
    | some n =>
      cases value
      case strLit sp =>
        by_cases hcn : n = "className" ∨ n = "class"
        · show EmitsIn ctx.src.length
            (nodeSpan (Node.strLit sp) :: rest.map propSpan) st
            (visitProps ctx (visitNode ctx
              (if n = "className" ∨ n = "class" then objPropEmit ctx st sp
               else st) (Node.strLit sp)) rest)
          rw [if_pos hcn]
          have hpsl : visitNode ctx (objPropEmit ctx st sp) (Node.strLit sp) =
              objPropEmit ctx st sp :=
            psl_mem_eq ctx (objPropEmit ctx st sp) sp
              (PatternType.functionCall "general" 0) (objPropEmit_mem ctx st sp)
          rw [hpsl]
          exact seq_cons_emitsIn (objPropEmit_emitsIn ctx st sp)
            (visitProps_emits ctx (objPropEmit ctx st sp) rest hwf.2 htail)
            hhead
        · show EmitsIn ctx.src.length
            (nodeSpan (Node.strLit sp) :: rest.map propSpan) st
            (visitProps ctx (visitNode ctx
              (if n = "className" ∨ n = "class" then objPropEmit ctx st sp
               else st) (Node.strLit sp)) rest)
          rw [if_neg hcn]
          exact seq_cons_emitsIn (visitNode_emits ctx st _ hwf.1)
            (visitProps_emits ctx (visitNode ctx st (Node.strLit sp)) rest
              hwf.2 htail) hhead
      all_goals
        exact seq_cons_emitsIn (visitNode_emits ctx st _ hwf.1)
          (visitProps_emits ctx (visitNode ctx st _) rest hwf.2 htail) hhead

theorem visitAttrs_emits (ctx : ExtCtx) :
    ∀ (st : ExtState) (ats : List JSXAttr), wfAttrs ctx.src.length ats = true →
      (ats.filterMap attrSpan).Pairwise spanDisj →
      EmitsIn ctx.src.length (ats.filterMap attrSpan) st
        (visitAttrs ctx st ats)
  | st, [], _, _ => emitsIn_self ..
  | st, .mk name value :: rest, hwf, hpw => by
    cases value with
    | none =>
      cases name with
      | none => exact visitAttrs_emits ctx st rest hwf hpw
      | some n => exact visitAttrs_emits ctx st rest hwf hpw
    | some av =>
      cases av with
      | strVal sp =>
        have htail := (List.pairwise_cons.1 hpw).2
        have hhead := (List.pairwise_cons.1 hpw).1
        cases name with
        | none =>
          exact seq_cons_emitsIn (psl_emitsIn ctx st sp _)
            (visitAttrs_emits ctx
              (process_string_literal ctx st sp
                (PatternType.functionCall "general" 0)) rest hwf htail) hhead
        | some n =>
          by_cases hcn : n = "className" ∨ n = "class"
          · show EmitsIn ctx.src.length (sp :: rest.filterMap attrSpan) st
              (visitAttrs ctx (process_string_literal ctx
                (if n = "className" ∨ n = "class" then
                  process_string_literal ctx st sp PatternType.jsxAttribute
                 else st) sp (PatternType.functionCall "general" 0)) rest)
            rw [if_pos hcn]
            have hafter : process_string_literal ctx
                (process_string_literal ctx st sp PatternType.jsxAttribute) sp
                (PatternType.functionCall "general" 0) =
                process_string_literal ctx st sp PatternType.jsxAttribute :=
              psl_after ctx st _ sp _ _ (fun x hx => hx)
            rw [hafter]
            exact seq_cons_emitsIn (psl_emitsIn ctx st sp _)
              (visitAttrs_emits ctx
                (process_string_literal ctx st sp PatternType.jsxAttribute)
                rest hwf htail) hhead
          · show EmitsIn ctx.src.length (sp :: rest.filterMap attrSpan) st
              (visitAttrs ctx (process_string_literal ctx
                (if n = "className" ∨ n = "class" then
                  process_string_literal ctx st sp PatternType.jsxAttribute
                 else st) sp (PatternType.functionCall "general" 0)) rest)
            rw [if_neg hcn]
            exact seq_cons_emitsIn (psl_emitsIn ctx st sp _)
              (visitAttrs_emits ctx
                (process_string_literal ctx st sp
                  (PatternType.functionCall "general" 0)) rest hwf htail) hhead
      | exprVal e =>
        simp only [wfAttrs, Bool.and_eq_true] at hwf
        have htail := (List.pairwise_cons.1 hpw).2
        have hhead := (List.pairwise_cons.1 hpw).1
        cases name with
        | none =>
          exact seq_cons_emitsIn (visitNode_emits ctx st e hwf.1)
            (visitAttrs_emits ctx (visitNode ctx st e) rest hwf.2 htail) hhead
        | some n =>
          exact seq_cons_emitsIn (visitNode_emits ctx st e hwf.1)
            (visitAttrs_emits ctx (visitNode ctx st e) rest hwf.2 htail) hhead
end

/-- C8 (amended): for any AST obeying the parser's span discipline
(`wfNode`: node spans valid, children inside parents, siblings disjoint),
every match emitted by extraction satisfies
`start < stop ≤ len(parsed text)` — spans relative to the text the parser
actually parsed — and the emitted list is pairwise non-overlapping.
Relative to the caller's original text after the JSX-wrapper span
adjustment the bound can fail (see the counterexample). -/
theorem C8_extraction_spans (src : String) (funcs : List String)
    (prog : Node) (hwf : wfNode src.length prog = true) :
    (∀ m ∈ extract_matches src funcs prog,
      m.start < m.stop ∧ m.stop ≤ src.length) ∧
    (extract_matches src funcs prog).Pairwise
      (fun a b => a.stop ≤ b.start ∨ b.stop ≤ a.start) := by
  obtain ⟨hp, new, hml, hmem, hpw⟩ :=
    visitNode_emits ⟨src.data, funcs⟩ ⟨[], []⟩ prog hwf
  have hnew : extract_matches src funcs prog = new := by
    rw [extract_matches, hml]
    rfl
  constructor
  · intro m hm
    rw [hnew] at hm
    obtain ⟨h1, h2, -⟩ := hmem m hm
    exact ⟨h1, h2⟩
  · rw [hnew]
    exact hpw

/-- Program and AST for the C8 witness: one supported call with one
string-literal argument. -/
def c8w_ast : Node :=
  Node.otherE (0, 15) [Node.callE (0, 14) (Node.identE (0, 2) "cn")
    [Node.strLit (3, 13)]]

theorem C8_witness :
    wfNode ("cn('p-4 flex');").length c8w_ast = true ∧
    ((∀ m ∈ extract_matches "cn('p-4 flex');"
        DEFAULT_SUPPORTED_FUNCTIONS c8w_ast,
        m.start < m.stop ∧ m.stop ≤ ("cn('p-4 flex');").length) ∧
      (extract_matches "cn('p-4 flex');"
        DEFAULT_SUPPORTED_FUNCTIONS c8w_ast).Pairwise
        (fun a b => a.stop ≤ b.start ∨ b.stop ≤ a.start)) :=
  ⟨by decide, C8_extraction_spans _ _ _ (by decide)⟩
